import Mathlib

/-!
# Verification of the Galera GCS core specification

This development gives a shallow embedding of the client-facing core of the
Galera Group Communication Service: the Total-Order (TO) monitor, the ordered
delivery / seqno-assignment loop, the connection state machine, the CONF
action payload layout (`gcs_act_conf_t` from `gcs.h`), and the
`AsioUdpSocket::set_option` member from `gcomm/src/asio_udp.hpp`.

The repository ships only the public API header for the GCS core
(declarations plus documentation comments); the function bodies of
`gcs_to_grab`, `gcs_to_release`, `gcs_to_cancel`, `gcs_to_self_cancel`,
`gcs_to_interrupt`, `gcs_to_seqno`, `gcs_init`, `gcs_recv` and `gcs_repl`
are not part of the sources at hand.  Those operations are therefore
modelled from the specification (its §4.1, §4.4, §4.5), faithfully to the
spec's words; every such definition says so in its doc comment.  The
`gcs_act_conf_t` struct and the `AsioUdpSocket` class are embedded from the
source files directly.
-/

namespace Galera

/-! ## Error code magnitudes (the C API returns their negations) -/

def EAGAIN : Int := 11
def EINTR : Int := 4
def EBUSY : Int := 16
def ERANGE : Int := 34
def EBADFD : Int := 77
def ECANCELED : Int := 125
def ENOTCONN : Int := 107

/-- Sentinel seqno `GCS_SEQNO_ILL = -1` from `gcs.h`: action not serialized. -/
def GCS_SEQNO_ILL : Int := -1

/-- Sentinel seqno `GCS_SEQNO_NIL = 0` from `gcs.h`: empty state. -/
def GCS_SEQNO_NIL : Int := 0

/-- Sentinel seqno `GCS_SEQNO_FIRST = 1` from `gcs.h`: start of the sequence. -/
def GCS_SEQNO_FIRST : Int := 1

/-! ## TO monitor: state

Modelled from the spec (§4.1, "TO Monitor state"): the monitor keeps
`{start_seqno, last_released, window_len, slots[window_len]}`, where the slot
for seqno `s` lives at ring index `s mod window_len`.  The admission test
keeps all live seqnos within `window_len` consecutive values, so the ring
indexing is injective on live slots; we represent the slot table as a finite
map keyed by the seqno itself.  A seqno absent from the map is in state
FREE/RELEASED. -/

/-- Slot states of a live TO waiter (spec §4.1).  A slot in state
`interrupted` was woken with `EINTR` but its seqno is still live. -/
inductive SlotSt
  | waiting
  | holding
  | canceled
  | interrupted
  deriving DecidableEq, Repr

/-- Outcome of one TO monitor operation.  `ebug` stands for the unspecific
negative error the spec assigns to application misuse (release out of
order, double grab, ...). -/
inductive ToRes
  | ok
  | erange
  | eagain
  | ecancel
  | eintr
  | ebug
  deriving DecidableEq, Repr

/-- Lookup in the slot table. -/
def slotGet : List (Int × SlotSt) → Int → Option SlotSt
  | [], _ => none
  | (v, st) :: rest, s => if s = v then some st else slotGet rest s

/-- Remove a seqno from the slot table. -/
def slotDel : List (Int × SlotSt) → Int → List (Int × SlotSt)
  | [], _ => []
  | (v, st) :: rest, s => if v = s then slotDel rest s else (v, st) :: slotDel rest s

/-- Set the state of a seqno's slot. -/
def slotSet (sl : List (Int × SlotSt)) (s : Int) (st : SlotSt) : List (Int × SlotSt) :=
  (s, st) :: slotDel sl s

/-- Modelled from the spec: the TO monitor state (§4.1).  `len` is
`window_len`, `start` the first seqno `grab` accepts, `lastReleased` the
`last_released` counter (initially `start - 1`). -/
structure TO where
  len : Nat
  start : Int
  lastReleased : Int
  slots : List (Int × SlotSt)
  deriving DecidableEq, Repr

/-- Modelled from the spec: `gcs_to_create (len, seqno)` (§4.1 `create`):
`start_seqno` is the first seqno `grab` will accept, so `last_released`
starts one below it; the slot table starts empty. -/
def gcs_to_create (len : Nat) (seqno : Int) : TO :=
  { len := len, start := seqno, lastReleased := seqno - 1, slots := [] }

/-- Result of the admission test performed by `gcs_to_grab`. -/
inductive Admit
  | admitted
  | erange
  | eagain
  deriving DecidableEq, Repr

/-- Modelled from the spec: the admission test of `gcs_to_grab` (§4.1):
a seqno at or below `last_released` is already past (`ERANGE`; this covers
both "below `start_seqno`" and "equal to current `last_released`"); if
`s - last_released ≥ window_len` the queue would overflow (`EAGAIN`);
otherwise the waiter is admitted. -/
def grabAdmit (t : TO) (s : Int) : Admit :=
  if s ≤ t.lastReleased then Admit.erange
  else if (t.len : Int) ≤ s - t.lastReleased then Admit.eagain
  else Admit.admitted

/-- Events of the TO monitor, one per observable transition of a blocking
API call.  `grab s` is the admission step of `gcs_to_grab` (installing the
WAITING slot or failing); `complete s` is the moment the blocked grab call
returns successfully (the waiter becomes the holder). -/
inductive Op
  | grab (s : Int)
  | complete (s : Int)
  | release (s : Int)
  | cancel (s : Int)
  | selfCancel (s : Int)
  | interrupt (s : Int)
  deriving DecidableEq, Repr

/-- Modelled from the spec: after a release, `last_released` silently
advances over consecutive CANCELED slots without invoking user code
(§4.1, tie-breaks).  `fuel` bounds the walk (the live window is finite). -/
def advance : Nat → Int → List (Int × SlotSt) → Int × List (Int × SlotSt)
  | 0, lr, sl => (lr, sl)
  | Nat.succ fuel, lr, sl =>
    match slotGet sl (lr + 1) with
    | some SlotSt.canceled => advance fuel (lr + 1) (slotDel sl (lr + 1))
    | _ => (lr, sl)

/-- Modelled from the spec: one transition of the TO monitor (§4.1).

* `grab s`: admission test, then install a WAITING slot (re-entering after
  an interrupt is allowed); a grab of a CANCELED seqno returns `ECANCEL`.
* `complete s`: the blocked grab returns 0; only possible when `s` is the
  successor of `last_released` and its slot is WAITING; the slot becomes
  HOLDING.
* `release s`: by the current holder (the slot of `s` is HOLDING, which
  forces `s = last_released + 1`); advances `last_released` past `s` and
  over any directly following CANCELED slots.  Out-of-order release is an
  application bug (negative error).
* `cancel s`: skip seqno `s`; a seqno already past returns `ERANGE`, and so
  does the seqno the caller itself holds (the unique HOLDING slot).
* `selfCancel s`: the would-be holder installs its own slot as CANCELED
  without entering the critical section; if that seqno is the successor of
  `last_released` the monitor advances over it at once.
* `interrupt s`: wake a WAITING slot with `EINTR`, leaving the seqno live
  (state `interrupted`); anything not WAITING returns `ERANGE`. -/
def step (t : TO) : Op → ToRes × TO
  | Op.grab s =>
    match grabAdmit t s with
    | Admit.erange => (ToRes.erange, t)
    | Admit.eagain => (ToRes.eagain, t)
    | Admit.admitted =>
      match slotGet t.slots s with
      | none => (ToRes.ok, { t with slots := slotSet t.slots s SlotSt.waiting })
      | some SlotSt.interrupted =>
          (ToRes.ok, { t with slots := slotSet t.slots s SlotSt.waiting })
      | some SlotSt.canceled => (ToRes.ecancel, t)
      | some _ => (ToRes.ebug, t)
  | Op.complete s =>
    if slotGet t.slots s = some SlotSt.waiting ∧ s = t.lastReleased + 1 then
      (ToRes.ok, { t with slots := slotSet t.slots s SlotSt.holding })
    else (ToRes.ebug, t)
  | Op.release s =>
    if slotGet t.slots s = some SlotSt.holding ∧ s = t.lastReleased + 1 then
      let sl := slotDel t.slots s
      let a := advance sl.length s sl
      (ToRes.ok, { t with lastReleased := a.1, slots := a.2 })
    else (ToRes.ebug, t)
  | Op.cancel s =>
    if s ≤ t.lastReleased then (ToRes.erange, t)
    else
      match slotGet t.slots s with
      | some SlotSt.holding => (ToRes.erange, t)
      | _ => (ToRes.ok, { t with slots := slotSet t.slots s SlotSt.canceled })
  | Op.selfCancel s =>
    if s ≤ t.lastReleased then (ToRes.erange, t)
    else
      match slotGet t.slots s with
      | some SlotSt.waiting => (ToRes.ebug, t)
      | some SlotSt.holding => (ToRes.ebug, t)
      | _ =>
        let sl := slotSet t.slots s SlotSt.canceled
        let a := advance sl.length t.lastReleased sl
        (ToRes.ok, { t with lastReleased := a.1, slots := a.2 })
  | Op.interrupt s =>
    if slotGet t.slots s = some SlotSt.waiting then
      (ToRes.ok, { t with slots := slotSet t.slots s SlotSt.interrupted })
    else (ToRes.erange, t)

/-- Run a sequence of TO events. -/
def run (t : TO) : List Op → TO
  | [] => t
  | op :: rest => run (step t op).2 rest

/-- The observed holding order: the seqnos of the successful `complete`
events, in the order the corresponding grab calls returned. -/
def holdsOrder (t : TO) : List Op → List Int
  | [] => []
  | Op.complete s :: rest =>
    if (step t (Op.complete s)).1 = ToRes.ok then
      s :: holdsOrder (step t (Op.complete s)).2 rest
    else
      holdsOrder (step t (Op.complete s)).2 rest
  | op :: rest => holdsOrder (step t op).2 rest

/-- What a thread blocked inside `gcs_to_grab (to, s)` returns when it is
woken in state `t`: 0 once promoted to holder, `-ECANCEL` when its slot was
canceled, `-EINTR` when interrupted; `none` when it is still blocked or no
waiter exists. -/
def wakeResult (t : TO) (s : Int) : Option ToRes :=
  match slotGet t.slots s with
  | some SlotSt.holding => some ToRes.ok
  | some SlotSt.canceled => some ToRes.ecancel
  | some SlotSt.interrupted => some ToRes.eintr
  | _ => none

/-- Modelled from the spec: `gcs_to_seqno` (§4.1 `seqno(to)`), a snapshot of
`last_released`. -/
def gcs_to_seqno (t : TO) : Int := t.lastReleased

example : gcs_to_seqno (gcs_to_create 8 1) = 0 := by decide

example :
    (step (gcs_to_create 4 1) (Op.grab 5)).1 = ToRes.eagain := by decide

example :
    holdsOrder (gcs_to_create 8 1)
      [Op.grab 1, Op.complete 1, Op.release 1, Op.grab 2, Op.complete 2,
       Op.release 2] = [1, 2] := by decide

/-! ## Slot table lemmas -/

theorem slotGet_slotDel (sl : List (Int × SlotSt)) (s v : Int) :
    slotGet (slotDel sl s) v = if v = s then none else slotGet sl v := by
  induction sl with
  | nil => simp [slotDel, slotGet]
  | cons p rest ih =>
    obtain ⟨w, st⟩ := p
    simp only [slotDel, slotGet]
    by_cases hws : w = s <;> by_cases hvw : v = w <;> by_cases hvs : v = s <;>
      simp_all [slotGet]

theorem slotGet_slotSet (sl : List (Int × SlotSt)) (s v : Int) (st : SlotSt) :
    slotGet (slotSet sl s st) v = if v = s then some st else slotGet sl v := by
  by_cases h : v = s <;> simp [slotSet, slotGet, slotGet_slotDel, h]

/-! ## Lemmas about `advance` -/

theorem advance_le (fuel : Nat) : ∀ (lr : Int) (sl : List (Int × SlotSt)),
    lr ≤ (advance fuel lr sl).1 := by
  induction fuel with
  | zero => intro lr sl; simp [advance]
  | succ n ih =>
    intro lr sl
    simp only [advance]
    split
    · exact le_trans (by omega) (ih (lr + 1) _)
    · simp

theorem advance_subset (fuel : Nat) : ∀ (lr : Int) (sl : List (Int × SlotSt)) v st,
    slotGet (advance fuel lr sl).2 v = some st → slotGet sl v = some st := by
  induction fuel with
  | zero =>
    intro lr sl v st h
    simpa [advance] using h
  | succ n ih =>
    intro lr sl v st
    simp only [advance]
    split
    · intro h
      have h2 := ih _ _ _ _ h
      rw [slotGet_slotDel] at h2
      by_cases hv : v = lr + 1
      · simp [hv] at h2
      · simpa [hv] using h2
    · exact fun h => h

theorem advance_stop (fuel : Nat) (lr : Int) (sl : List (Int × SlotSt))
    (h : slotGet sl (lr + 1) ≠ some SlotSt.canceled) :
    advance fuel lr sl = (lr, sl) := by
  cases fuel with
  | zero => rfl
  | succ n => simp only [advance]

theorem advance_mem_range (fuel : Nat) : ∀ (lr : Int) (sl : List (Int × SlotSt)) v,
    lr < v → v ≤ (advance fuel lr sl).1 → slotGet sl v = some SlotSt.canceled := by
  induction fuel with
  | zero =>
    intro lr sl v h1 h2
    simp [advance] at h2
    omega
  | succ n ih =>
    intro lr sl v h1
    simp only [advance]
    split
    · next heq =>
      intro h2
      by_cases hv : v = lr + 1
      · rw [hv]; exact heq
      · have h3 := ih (lr + 1) (slotDel sl (lr + 1)) v (by omega) h2
        rw [slotGet_slotDel] at h3
        simpa [hv] using h3
    · intro h2
      simp at h2
      omega

theorem advance_future (fuel : Nat) : ∀ (lr : Int) (sl : List (Int × SlotSt)),
    (∀ v st, slotGet sl v = some st → lr < v) →
    ∀ v st, slotGet (advance fuel lr sl).2 v = some st → (advance fuel lr sl).1 < v := by
  induction fuel with
  | zero =>
    intro lr sl h v st hv
    exact h v st (by simpa [advance] using hv)
  | succ n ih =>
    intro lr sl h v st
    simp only [advance]
    split
    · intro hv
      refine ih (lr + 1) _ ?_ v st hv
      intro w stw hw
      rw [slotGet_slotDel] at hw
      by_cases hwl : w = lr + 1
      · simp [hwl] at hw
      · have := h w stw (by simpa [hwl] using hw)
        omega
    · exact fun hv => h v st hv

/-! ## Monotonicity of `last_released` -/

theorem step_lastReleased_le (t : TO) (op : Op) :
    t.lastReleased ≤ (step t op).2.lastReleased := by
  cases op with
  | grab s =>
    simp only [step]
    split
    · simp
    · simp
    · split <;> simp
  | complete s =>
    simp only [step]
    split <;> simp
  | release s =>
    simp only [step]
    split
    · next h =>
      obtain ⟨h1, h2⟩ := h
      have ha := advance_le (slotDel t.slots s).length s (slotDel t.slots s)
      simp only
      omega
    · simp
  | cancel s =>
    simp only [step]
    split
    · simp
    · split <;> simp
  | selfCancel s =>
    simp only [step]
    split
    · simp
    · split
      · simp
      · simp
      · have ha := advance_le (slotSet t.slots s SlotSt.canceled).length t.lastReleased
          (slotSet t.slots s SlotSt.canceled)
        simp only
        omega
  | interrupt s =>
    simp only [step]
    split <;> simp

theorem run_lastReleased_le (t : TO) (ops : List Op) :
    t.lastReleased ≤ (run t ops).lastReleased := by
  induction ops generalizing t with
  | nil => simp [run]
  | cons op rest ih => exact le_trans (step_lastReleased_le t op) (ih (step t op).2)

/-! ## The monitor invariant -/

/-- The invariant of a well-formed monitor state: positive window, the
`last_released` floor never below `start - 1`, every live slot strictly in
the future of `last_released`, and a HOLDING slot only at the head
position `last_released + 1` (so it is unique). -/
structure WF (t : TO) : Prop where
  posLen : 0 < t.len
  startLB : t.start - 1 ≤ t.lastReleased
  slotsFuture : ∀ v st, slotGet t.slots v = some st → t.lastReleased < v
  holdHead : ∀ v, slotGet t.slots v = some SlotSt.holding → v = t.lastReleased + 1

theorem wf_create (len : Nat) (start : Int) (h : 0 < len) :
    WF (gcs_to_create len start) := by
  refine ⟨h, by simp [gcs_to_create], ?_, ?_⟩
  · intro v st hv
    simp [gcs_to_create, slotGet] at hv
  · intro v hv
    simp [gcs_to_create, slotGet] at hv

theorem grabAdmit_admitted (t : TO) (s : Int) (h : grabAdmit t s = Admit.admitted) :
    t.lastReleased < s ∧ s - t.lastReleased < (t.len : Int) := by
  unfold grabAdmit at h
  split at h
  · simp at h
  · next h1 =>
    split at h
    · simp at h
    · next h2 => exact ⟨by omega, by omega⟩

theorem wf_setSlot (t : TO) (s : Int) (st : SlotSt) (h : WF t)
    (hs : t.lastReleased < s) (hst : st = SlotSt.holding → s = t.lastReleased + 1) :
    WF { t with slots := slotSet t.slots s st } := by
  refine ⟨h.posLen, h.startLB, ?_, ?_⟩
  · intro v stv hv
    have hv' : slotGet (slotSet t.slots s st) v = some stv := hv
    rw [slotGet_slotSet] at hv'
    show t.lastReleased < v
    by_cases hvs : v = s
    · omega
    · rw [if_neg hvs] at hv'
      exact h.slotsFuture v stv hv'
  · intro v hv
    have hv' : slotGet (slotSet t.slots s st) v = some SlotSt.holding := hv
    rw [slotGet_slotSet] at hv'
    show v = t.lastReleased + 1
    by_cases hvs : v = s
    · rw [if_pos hvs] at hv'
      have hsth : st = SlotSt.holding := by
        injection hv'
      rw [hvs]
      exact hst hsth
    · rw [if_neg hvs] at hv'
      exact h.holdHead v hv'

theorem wf_advance_release (t : TO) (s : Int) (h : WF t)
    (_hc1 : slotGet t.slots s = some SlotSt.holding) (hc2 : s = t.lastReleased + 1) :
    WF { t with
      lastReleased := (advance (slotDel t.slots s).length s (slotDel t.slots s)).1,
      slots := (advance (slotDel t.slots s).length s (slotDel t.slots s)).2 } := by
  have hfut' : ∀ v st, slotGet (slotDel t.slots s) v = some st → s < v := by
    intro v st hv
    rw [slotGet_slotDel] at hv
    by_cases hvs : v = s
    · simp [hvs] at hv
    · rw [if_neg hvs] at hv
      have := h.slotsFuture v st hv
      omega
  refine ⟨h.posLen, ?_, ?_, ?_⟩
  · show t.start - 1 ≤ (advance (slotDel t.slots s).length s (slotDel t.slots s)).1
    have h1 := advance_le (slotDel t.slots s).length s (slotDel t.slots s)
    have h2 := h.startLB
    omega
  · intro v st hv
    have hv' : slotGet (advance (slotDel t.slots s).length s (slotDel t.slots s)).2 v
        = some st := hv
    exact advance_future _ _ _ hfut' v st hv'
  · intro v hv
    have hv' : slotGet (advance (slotDel t.slots s).length s (slotDel t.slots s)).2 v
        = some SlotSt.holding := hv
    have hsub := advance_subset _ _ _ v SlotSt.holding hv'
    have := hfut' v SlotSt.holding hsub
    rw [slotGet_slotDel] at hsub
    by_cases hvs : v = s
    · omega
    · rw [if_neg hvs] at hsub
      have := h.holdHead v hsub
      omega

theorem wf_advance_selfCancel (t : TO) (s : Int) (h : WF t)
    (hs : t.lastReleased < s) :
    WF { t with
      lastReleased := (advance (slotSet t.slots s SlotSt.canceled).length t.lastReleased
        (slotSet t.slots s SlotSt.canceled)).1,
      slots := (advance (slotSet t.slots s SlotSt.canceled).length t.lastReleased
        (slotSet t.slots s SlotSt.canceled)).2 } := by
  have hfut' : ∀ v st, slotGet (slotSet t.slots s SlotSt.canceled) v = some st →
      t.lastReleased < v := by
    intro v st hv
    rw [slotGet_slotSet] at hv
    by_cases hvs : v = s
    · omega
    · rw [if_neg hvs] at hv
      exact h.slotsFuture v st hv
  refine ⟨h.posLen, ?_, ?_, ?_⟩
  · show t.start - 1 ≤ (advance (slotSet t.slots s SlotSt.canceled).length t.lastReleased
      (slotSet t.slots s SlotSt.canceled)).1
    have h1 := advance_le (slotSet t.slots s SlotSt.canceled).length t.lastReleased
      (slotSet t.slots s SlotSt.canceled)
    have h2 := h.startLB
    omega
  · intro v st hv
    have hv' : slotGet (advance (slotSet t.slots s SlotSt.canceled).length t.lastReleased
        (slotSet t.slots s SlotSt.canceled)).2 v = some st := hv
    exact advance_future _ _ _ hfut' v st hv'
  · intro v hv
    have hv' : slotGet (advance (slotSet t.slots s SlotSt.canceled).length t.lastReleased
        (slotSet t.slots s SlotSt.canceled)).2 v = some SlotSt.holding := hv
    have hsub := advance_subset _ _ _ v SlotSt.holding hv'
    have hvv := hsub
    rw [slotGet_slotSet] at hvv
    by_cases hvs : v = s
    · rw [if_pos hvs] at hvv
      exact absurd hvv (by decide)
    · rw [if_neg hvs] at hvv
      have hvh := h.holdHead v hvv
      have hne : slotGet (slotSet t.slots s SlotSt.canceled) (t.lastReleased + 1)
          ≠ some SlotSt.canceled := by
        rw [← hvh]
        rw [hsub]
        decide
      have hst := advance_stop (slotSet t.slots s SlotSt.canceled).length t.lastReleased
        (slotSet t.slots s SlotSt.canceled) hne
      show v = (advance (slotSet t.slots s SlotSt.canceled).length t.lastReleased
        (slotSet t.slots s SlotSt.canceled)).1 + 1
      rw [hst]
      exact hvh

theorem wf_step (t : TO) (op : Op) (h : WF t) : WF (step t op).2 := by
  cases op with
  | grab s =>
    simp only [step]
    split
    · exact h
    · exact h
    · next hadm =>
      have hs := grabAdmit_admitted t s hadm
      split
      · exact wf_setSlot t s SlotSt.waiting h hs.1 (by intro hh; exact absurd hh (by decide))
      · exact wf_setSlot t s SlotSt.waiting h hs.1 (by intro hh; exact absurd hh (by decide))
      · exact h
      · exact h
  | complete s =>
    simp only [step]
    split
    · next hc =>
      obtain ⟨hc1, hc2⟩ := hc
      exact wf_setSlot t s SlotSt.holding h (by omega) (fun _ => hc2)
    · exact h
  | release s =>
    simp only [step]
    split
    · next hc =>
      obtain ⟨hc1, hc2⟩ := hc
      exact wf_advance_release t s h hc1 hc2
    · exact h
  | cancel s =>
    simp only [step]
    split
    · exact h
    · next hc =>
      split
      · exact h
      · exact wf_setSlot t s SlotSt.canceled h (by omega)
          (by intro hh; exact absurd hh (by decide))
  | selfCancel s =>
    simp only [step]
    split
    · exact h
    · next hc =>
      split
      · exact h
      · exact h
      · exact wf_advance_selfCancel t s h (by omega)
  | interrupt s =>
    simp only [step]
    split
    · next hc =>
      exact wf_setSlot t s SlotSt.interrupted h (h.slotsFuture s SlotSt.waiting hc)
        (by intro hh; exact absurd hh (by decide))
    · exact h

theorem wf_run (t : TO) (ops : List Op) (h : WF t) : WF (run t ops) := by
  induction ops generalizing t with
  | nil => exact h
  | cons op rest ih => exact ih (step t op).2 (wf_step t op h)

/-! ## The holding order -/

theorem complete_ok_iff (t : TO) (s : Int) :
    (step t (Op.complete s)).1 = ToRes.ok ↔
      slotGet t.slots s = some SlotSt.waiting ∧ s = t.lastReleased + 1 := by
  simp only [step]
  split
  · next hc => exact iff_of_true rfl hc
  · next hc => exact iff_of_false (by simp) hc

theorem complete_fail_state (t : TO) (s : Int)
    (h : (step t (Op.complete s)).1 ≠ ToRes.ok) :
    (step t (Op.complete s)).2 = t := by
  have hc : ¬(slotGet t.slots s = some SlotSt.waiting ∧ s = t.lastReleased + 1) := by
    intro hc
    exact h ((complete_ok_iff t s).mpr hc)
  simp only [step]
  rw [if_neg hc]

theorem release_fail_state (t : TO) (s : Int)
    (h : ¬(slotGet t.slots s = some SlotSt.holding ∧ s = t.lastReleased + 1)) :
    (step t (Op.release s)).2 = t := by
  simp only [step]
  rw [if_neg h]

theorem release_ok_lr (t : TO) (u : Int) (hok : (step t (Op.release u)).1 = ToRes.ok) :
    t.lastReleased + 1 ≤ (step t (Op.release u)).2.lastReleased := by
  by_cases hc : slotGet t.slots u = some SlotSt.holding ∧ u = t.lastReleased + 1
  · have h1 := advance_le (slotDel t.slots u).length u (slotDel t.slots u)
    have h2 : (step t (Op.release u)).2.lastReleased
        = (advance (slotDel t.slots u).length u (slotDel t.slots u)).1 := by
      simp only [step]
      rw [if_pos hc]
    obtain ⟨-, hc2⟩ := hc
    omega
  · exfalso
    have hbug : (step t (Op.release u)).1 = ToRes.ebug := by
      simp only [step]
      rw [if_neg hc]
    rw [hbug] at hok
    exact absurd hok (by decide)

/-- While a holder sits at the head position, no event except its own
release touches `last_released`, and the HOLDING slot survives everything
else. -/
theorem head_holding_step (t : TO) (op : Op)
    (hold : slotGet t.slots (t.lastReleased + 1) = some SlotSt.holding) :
    ((step t op).2.lastReleased = t.lastReleased ∧
      slotGet (step t op).2.slots (t.lastReleased + 1) = some SlotSt.holding) ∨
    t.lastReleased + 1 ≤ (step t op).2.lastReleased := by
  cases op with
  | grab u =>
    left
    simp only [step]
    split
    · exact ⟨rfl, hold⟩
    · exact ⟨rfl, hold⟩
    · split
      · next heq =>
        have hu : (t.lastReleased + 1) ≠ u := by
          intro huv
          rw [huv] at hold
          rw [heq] at hold
          simp at hold
        refine ⟨rfl, ?_⟩
        show slotGet (slotSet t.slots u SlotSt.waiting) (t.lastReleased + 1)
          = some SlotSt.holding
        rw [slotGet_slotSet, if_neg hu]
        exact hold
      · next heq =>
        have hu : (t.lastReleased + 1) ≠ u := by
          intro huv
          rw [huv] at hold
          rw [heq] at hold
          simp at hold
        refine ⟨rfl, ?_⟩
        show slotGet (slotSet t.slots u SlotSt.waiting) (t.lastReleased + 1)
          = some SlotSt.holding
        rw [slotGet_slotSet, if_neg hu]
        exact hold
      · exact ⟨rfl, hold⟩
      · exact ⟨rfl, hold⟩
  | complete u =>
    left
    have hfail : ¬(slotGet t.slots u = some SlotSt.waiting ∧ u = t.lastReleased + 1) := by
      rintro ⟨h1, h2⟩
      rw [h2] at h1
      rw [hold] at h1
      simp at h1
    simp only [step]
    rw [if_neg hfail]
    exact ⟨rfl, hold⟩
  | release u =>
    by_cases hc : slotGet t.slots u = some SlotSt.holding ∧ u = t.lastReleased + 1
    · right
      have h1 := advance_le (slotDel t.slots u).length u (slotDel t.slots u)
      have h2 : (step t (Op.release u)).2.lastReleased
          = (advance (slotDel t.slots u).length u (slotDel t.slots u)).1 := by
        simp only [step]
        rw [if_pos hc]
      obtain ⟨hc1, hc2⟩ := hc
      omega
    · left
      simp only [step]
      rw [if_neg hc]
      exact ⟨rfl, hold⟩
  | cancel u =>
    left
    simp only [step]
    split
    · exact ⟨rfl, hold⟩
    · next hle =>
      split
      · exact ⟨rfl, hold⟩
      · next hne =>
        have hu : (t.lastReleased + 1) ≠ u := by
          intro huv
          rw [huv] at hold
          exact hne hold
        refine ⟨rfl, ?_⟩
        show slotGet (slotSet t.slots u SlotSt.canceled) (t.lastReleased + 1)
          = some SlotSt.holding
        rw [slotGet_slotSet, if_neg hu]
        exact hold
  | selfCancel u =>
    simp only [step]
    split
    · left
      exact ⟨rfl, hold⟩
    · next hle =>
      split
      · left
        exact ⟨rfl, hold⟩
      · left
        exact ⟨rfl, hold⟩
      · next hne1 hne2 =>
        left
        have hu : (t.lastReleased + 1) ≠ u := by
          intro huv
          rw [huv] at hold
          exact hne2 hold
        have hget : slotGet (slotSet t.slots u SlotSt.canceled) (t.lastReleased + 1)
            = some SlotSt.holding := by
          rw [slotGet_slotSet, if_neg hu]
          exact hold
        have hstp := advance_stop (slotSet t.slots u SlotSt.canceled).length t.lastReleased
          (slotSet t.slots u SlotSt.canceled) (by rw [hget]; decide)
        constructor
        · show (advance (slotSet t.slots u SlotSt.canceled).length t.lastReleased
            (slotSet t.slots u SlotSt.canceled)).1 = t.lastReleased
          rw [hstp]
        · show slotGet (advance (slotSet t.slots u SlotSt.canceled).length t.lastReleased
            (slotSet t.slots u SlotSt.canceled)).2 (t.lastReleased + 1) = some SlotSt.holding
          rw [hstp]
          exact hget
  | interrupt u =>
    left
    simp only [step]
    split
    · next heq =>
      have hu : (t.lastReleased + 1) ≠ u := by
        intro huv
        rw [huv] at hold
        rw [heq] at hold
        simp at hold
      refine ⟨rfl, ?_⟩
      show slotGet (slotSet t.slots u SlotSt.interrupted) (t.lastReleased + 1)
        = some SlotSt.holding
      rw [slotGet_slotSet, if_neg hu]
      exact hold
    · exact ⟨rfl, hold⟩

theorem holdsOrder_lb (t : TO) (ops : List Op) :
    ∀ s ∈ holdsOrder t ops, t.lastReleased + 1 ≤ s := by
  induction ops generalizing t with
  | nil =>
    intro s hs
    simp [holdsOrder] at hs
  | cons op rest ih =>
    intro s hs
    have hmono := step_lastReleased_le t op
    cases op with
    | complete u =>
      simp only [holdsOrder] at hs
      by_cases hok : (step t (Op.complete u)).1 = ToRes.ok
      · rw [if_pos hok] at hs
        rcases List.mem_cons.mp hs with h1 | h1
        · subst h1
          have hc := (complete_ok_iff t s).mp hok
          omega
        · have h2 := ih (step t (Op.complete u)).2 s h1
          omega
      · rw [if_neg hok] at hs
        have h2 := ih (step t (Op.complete u)).2 s hs
        omega
    | grab u =>
      simp only [holdsOrder] at hs
      have h2 := ih (step t (Op.grab u)).2 s hs
      omega
    | release u =>
      simp only [holdsOrder] at hs
      have h2 := ih (step t (Op.release u)).2 s hs
      omega
    | cancel u =>
      simp only [holdsOrder] at hs
      have h2 := ih (step t (Op.cancel u)).2 s hs
      omega
    | selfCancel u =>
      simp only [holdsOrder] at hs
      have h2 := ih (step t (Op.selfCancel u)).2 s hs
      omega
    | interrupt u =>
      simp only [holdsOrder] at hs
      have h2 := ih (step t (Op.interrupt u)).2 s hs
      omega

theorem holdsOrder_lb_strict (t : TO) (ops : List Op) (h : WF t)
    (hold : slotGet t.slots (t.lastReleased + 1) = some SlotSt.holding) :
    ∀ s ∈ holdsOrder t ops, t.lastReleased + 1 < s := by
  induction ops generalizing t with
  | nil =>
    intro s hs
    simp [holdsOrder] at hs
  | cons op rest ih =>
    intro s hs
    have hwf' := wf_step t op h
    have hred : s ∈ holdsOrder (step t op).2 rest := by
      cases op with
      | complete u =>
        have hfail : (step t (Op.complete u)).1 ≠ ToRes.ok := by
          intro hok
          obtain ⟨h1, h2⟩ := (complete_ok_iff t u).mp hok
          rw [h2] at h1
          rw [hold] at h1
          simp at h1
        simp only [holdsOrder] at hs
        rw [if_neg hfail] at hs
        exact hs
      | grab u => simpa only [holdsOrder] using hs
      | release u => simpa only [holdsOrder] using hs
      | cancel u => simpa only [holdsOrder] using hs
      | selfCancel u => simpa only [holdsOrder] using hs
      | interrupt u => simpa only [holdsOrder] using hs
    rcases head_holding_step t op hold with ⟨he1, he2⟩ | hge
    · have h2 := ih (step t op).2 hwf' (by rw [he1]; exact he2) s hred
      omega
    · have h2 := holdsOrder_lb (step t op).2 rest s hred
      omega

theorem holdsOrder_chain (t : TO) (ops : List Op) (h : WF t) :
    List.Chain' (· < ·) (holdsOrder t ops) := by
  induction ops generalizing t with
  | nil => simp [holdsOrder]
  | cons op rest ih =>
    cases op with
    | complete u =>
      by_cases hok : (step t (Op.complete u)).1 = ToRes.ok
      · simp only [holdsOrder]
        rw [if_pos hok]
        obtain ⟨h1, h2⟩ := (complete_ok_iff t u).mp hok
        have hwf' := wf_step t (Op.complete u) h
        have hst : (step t (Op.complete u)).2
            = { t with slots := slotSet t.slots u SlotSt.holding } := by
          simp only [step]
          rw [if_pos ⟨h1, h2⟩]
        have hold' : slotGet (step t (Op.complete u)).2.slots
            ((step t (Op.complete u)).2.lastReleased + 1) = some SlotSt.holding := by
          rw [hst]
          show slotGet (slotSet t.slots u SlotSt.holding) (t.lastReleased + 1)
            = some SlotSt.holding
          rw [← h2, slotGet_slotSet, if_pos rfl]
        rw [List.chain'_cons']
        constructor
        · intro y hy
          have hym := List.mem_of_mem_head? hy
          have := holdsOrder_lb_strict (step t (Op.complete u)).2 rest hwf' hold' y hym
          have hlr : (step t (Op.complete u)).2.lastReleased = t.lastReleased := by
            rw [hst]
          omega
        · exact ih (step t (Op.complete u)).2 hwf'
      · simp only [holdsOrder]
        rw [if_neg hok]
        exact ih (step t (Op.complete u)).2 (wf_step t (Op.complete u) h)
    | grab u =>
      simp only [holdsOrder]
      exact ih (step t (Op.grab u)).2 (wf_step t (Op.grab u) h)
    | release u =>
      simp only [holdsOrder]
      exact ih (step t (Op.release u)).2 (wf_step t (Op.release u) h)
    | cancel u =>
      simp only [holdsOrder]
      exact ih (step t (Op.cancel u)).2 (wf_step t (Op.cancel u) h)
    | selfCancel u =>
      simp only [holdsOrder]
      exact ih (step t (Op.selfCancel u)).2 (wf_step t (Op.selfCancel u) h)
    | interrupt u =>
      simp only [holdsOrder]
      exact ih (step t (Op.interrupt u)).2 (wf_step t (Op.interrupt u) h)

/-! ## History: how `last_released` got where it is -/

/-- `FinishedIn t0 ops v`: somewhere along `ops` a successful
`release v`, `cancel v` or `selfCancel v` happened. -/
def FinishedIn (t0 : TO) (ops : List Op) (v : Int) : Prop :=
  ∃ q o q', ops = q ++ o :: q' ∧
    (o = Op.release v ∨ o = Op.cancel v ∨ o = Op.selfCancel v) ∧
    (step (run t0 q) o).1 = ToRes.ok

theorem finishedIn_cons (t0 : TO) (op : Op) (ops : List Op) (v : Int)
    (h : FinishedIn (step t0 op).2 ops v) : FinishedIn t0 (op :: ops) v := by
  obtain ⟨q, o, q', hq, ho, hs⟩ := h
  exact ⟨op :: q, o, q', by simp [hq], ho, hs⟩

theorem finishedIn_head (t0 : TO) (op : Op) (ops : List Op) (v : Int)
    (ho : op = Op.release v ∨ op = Op.cancel v ∨ op = Op.selfCancel v)
    (hs : (step t0 op).1 = ToRes.ok) : FinishedIn t0 (op :: ops) v :=
  ⟨[], op, ops, rfl, ho, hs⟩

/-- If one step moved `last_released` past `v`, that step was a successful
release or self-cancel of `v` itself, or `v`'s slot was already CANCELED. -/
theorem step_raise (t : TO) (op : Op) (v : Int)
    (h1 : t.lastReleased < v) (h2 : v ≤ (step t op).2.lastReleased) :
    ((op = Op.release v ∨ op = Op.cancel v ∨ op = Op.selfCancel v) ∧
      (step t op).1 = ToRes.ok)
    ∨ slotGet t.slots v = some SlotSt.canceled := by
  revert h2
  cases op with
  | grab u =>
    simp only [step]
    split
    · intro h2; exfalso; simp at h2; omega
    · intro h2; exfalso; simp at h2; omega
    · split <;> (intro h2; exfalso; simp at h2; omega)
  | complete u =>
    simp only [step]
    split <;> (intro h2; exfalso; simp at h2; omega)
  | release u =>
    simp only [step]
    split
    · next hc =>
      obtain ⟨hc1, hc2⟩ := hc
      intro h2
      simp only at h2
      by_cases hvu : v = u
      · subst hvu
        left
        refine ⟨Or.inl rfl, ?_⟩
        simp only [step]
      · right
        have hm : slotGet (slotDel t.slots u) v = some SlotSt.canceled := by
          refine advance_mem_range (slotDel t.slots u).length u (slotDel t.slots u) v
            (by omega) ?_
          exact h2
        rw [slotGet_slotDel, if_neg hvu] at hm
        exact hm
    · intro h2; exfalso; simp at h2; omega
  | cancel u =>
    simp only [step]
    split
    · intro h2; exfalso; simp at h2; omega
    · split <;> (intro h2; exfalso; simp at h2; omega)
  | selfCancel u =>
    simp only [step]
    split
    · intro h2; exfalso; simp at h2; omega
    · next hle =>
      split
      · intro h2; exfalso; simp at h2; omega
      · intro h2; exfalso; simp at h2; omega
      · next hne1 hne2 =>
        intro h2
        simp only at h2
        have hm : slotGet (slotSet t.slots u SlotSt.canceled) v = some SlotSt.canceled := by
          refine advance_mem_range (slotSet t.slots u SlotSt.canceled).length t.lastReleased
            (slotSet t.slots u SlotSt.canceled) v (by omega) ?_
          exact h2
        rw [slotGet_slotSet] at hm
        by_cases hvu : v = u
        · subst hvu
          left
          refine ⟨Or.inr (Or.inr rfl), ?_⟩
          simp only [step]
        · rw [if_neg hvu] at hm
          right
          exact hm
  | interrupt u =>
    simp only [step]
    split <;> (intro h2; exfalso; simp at h2; omega)

/-- A CANCELED slot in the post-state of a step was either produced by that
very step (a successful cancel/self-cancel of `v`) or already CANCELED. -/
theorem step_canceled (t : TO) (op : Op) (v : Int)
    (h : slotGet (step t op).2.slots v = some SlotSt.canceled) :
    ((op = Op.cancel v ∨ op = Op.selfCancel v) ∧ (step t op).1 = ToRes.ok)
    ∨ slotGet t.slots v = some SlotSt.canceled := by
  revert h
  cases op with
  | grab u =>
    simp only [step]
    split
    · exact fun h => Or.inr h
    · exact fun h => Or.inr h
    · split
      · intro h
        have h' : slotGet (slotSet t.slots u SlotSt.waiting) v = some SlotSt.canceled := h
        rw [slotGet_slotSet] at h'
        by_cases hvu : v = u
        · rw [if_pos hvu] at h'
          exact absurd h' (by simp)
        · rw [if_neg hvu] at h'
          exact Or.inr h'
      · intro h
        have h' : slotGet (slotSet t.slots u SlotSt.waiting) v = some SlotSt.canceled := h
        rw [slotGet_slotSet] at h'
        by_cases hvu : v = u
        · rw [if_pos hvu] at h'
          exact absurd h' (by simp)
        · rw [if_neg hvu] at h'
          exact Or.inr h'
      · exact fun h => Or.inr h
      · exact fun h => Or.inr h
  | complete u =>
    simp only [step]
    split
    · intro h
      have h' : slotGet (slotSet t.slots u SlotSt.holding) v = some SlotSt.canceled := h
      rw [slotGet_slotSet] at h'
      by_cases hvu : v = u
      · rw [if_pos hvu] at h'
        exact absurd h' (by simp)
      · rw [if_neg hvu] at h'
        exact Or.inr h'
    · exact fun h => Or.inr h
  | release u =>
    simp only [step]
    split
    · intro h
      have h' : slotGet (advance (slotDel t.slots u).length u (slotDel t.slots u)).2 v
          = some SlotSt.canceled := h
      have hsub := advance_subset _ _ _ v SlotSt.canceled h'
      rw [slotGet_slotDel] at hsub
      by_cases hvu : v = u
      · rw [if_pos hvu] at hsub
        exact absurd hsub (by simp)
      · rw [if_neg hvu] at hsub
        exact Or.inr hsub
    · exact fun h => Or.inr h
  | cancel u =>
    simp only [step]
    split
    · exact fun h => Or.inr h
    · next hle =>
      split
      · exact fun h => Or.inr h
      · next hne =>
        intro h
        have h' : slotGet (slotSet t.slots u SlotSt.canceled) v = some SlotSt.canceled := h
        rw [slotGet_slotSet] at h'
        by_cases hvu : v = u
        · subst hvu
          left
          refine ⟨Or.inl rfl, ?_⟩
          simp only [step]
        · rw [if_neg hvu] at h'
          exact Or.inr h'
  | selfCancel u =>
    simp only [step]
    split
    · exact fun h => Or.inr h
    · next hle =>
      split
      · exact fun h => Or.inr h
      · exact fun h => Or.inr h
      · next hne1 hne2 =>
        intro h
        have h' : slotGet (advance (slotSet t.slots u SlotSt.canceled).length t.lastReleased
            (slotSet t.slots u SlotSt.canceled)).2 v = some SlotSt.canceled := h
        have hsub := advance_subset _ _ _ v SlotSt.canceled h'
        rw [slotGet_slotSet] at hsub
        by_cases hvu : v = u
        · subst hvu
          left
          refine ⟨Or.inr rfl, ?_⟩
          simp only [step]
        · rw [if_neg hvu] at hsub
          exact Or.inr hsub
  | interrupt u =>
    simp only [step]
    split
    · intro h
      have h' : slotGet (slotSet t.slots u SlotSt.interrupted) v = some SlotSt.canceled := h
      rw [slotGet_slotSet] at h'
      by_cases hvu : v = u
      · rw [if_pos hvu] at h'
        exact absurd h' (by simp)
      · rw [if_neg hvu] at h'
        exact Or.inr h'
    · exact fun h => Or.inr h

/-- The history invariant: every seqno between the initial and the current
`last_released` floor was finished by a successful release/cancel/self-cancel
along the way (or was CANCELED from the start), and every CANCELED slot got
that way through a successful cancel/self-cancel. -/
theorem run_history (t0 : TO) (ops : List Op) :
    (∀ v, t0.lastReleased < v → v ≤ (run t0 ops).lastReleased →
      FinishedIn t0 ops v ∨ slotGet t0.slots v = some SlotSt.canceled) ∧
    (∀ v, slotGet (run t0 ops).slots v = some SlotSt.canceled →
      FinishedIn t0 ops v ∨ slotGet t0.slots v = some SlotSt.canceled) := by
  induction ops generalizing t0 with
  | nil =>
    constructor
    · intro v h1 h2
      exfalso
      simp [run] at h2
      omega
    · intro v h
      exact Or.inr h
  | cons op rest ih =>
    obtain ⟨ih1, ih2⟩ := ih (step t0 op).2
    constructor
    · intro v hv1 hv2
      by_cases hmid : v ≤ (step t0 op).2.lastReleased
      · rcases step_raise t0 op v hv1 hmid with ⟨ho, hs⟩ | hc
        · exact Or.inl (finishedIn_head t0 op rest v ho hs)
        · exact Or.inr hc
      · rcases ih1 v (by omega) hv2 with hf | hc
        · exact Or.inl (finishedIn_cons t0 op rest v hf)
        · rcases step_canceled t0 op v hc with ⟨ho, hs⟩ | hc0
          · exact Or.inl (finishedIn_head t0 op rest v (Or.inr ho) hs)
          · exact Or.inr hc0
    · intro v hv
      rcases ih2 v hv with hf | hc
      · exact Or.inl (finishedIn_cons t0 op rest v hf)
      · rcases step_canceled t0 op v hc with ⟨ho, hs⟩ | hc0
        · exact Or.inl (finishedIn_head t0 op rest v (Or.inr ho) hs)
        · exact Or.inr hc0

/-! ## Dead seqnos never hold the TO -/

/-- A seqno that is already past the floor or whose slot is CANCELED. -/
def Dead (t : TO) (s : Int) : Prop :=
  s ≤ t.lastReleased ∨ slotGet t.slots s = some SlotSt.canceled

theorem advance_dead (fuel : Nat) : ∀ (lr : Int) (sl : List (Int × SlotSt)) (s : Int),
    slotGet sl s = some SlotSt.canceled →
    s ≤ (advance fuel lr sl).1 ∨ slotGet (advance fuel lr sl).2 s = some SlotSt.canceled := by
  induction fuel with
  | zero =>
    intro lr sl s h
    right
    simpa [advance] using h
  | succ n ih =>
    intro lr sl s h
    simp only [advance]
    split
    · by_cases hs : s = lr + 1
      · left
        have := advance_le n (lr + 1) (slotDel sl (lr + 1))
        omega
      · exact ih (lr + 1) (slotDel sl (lr + 1)) s
          (by rw [slotGet_slotDel, if_neg hs]; exact h)
    · right
      exact h

theorem dead_step (t : TO) (op : Op) (s : Int) (h : Dead t s) :
    Dead (step t op).2 s := by
  rcases h with h | h
  · left
    have := step_lastReleased_le t op
    omega
  · cases op with
    | grab u =>
      simp only [step]
      split
      · exact Or.inr h
      · exact Or.inr h
      · split
        · next heq =>
          have hsu : s ≠ u := by
            intro hsu
            rw [hsu] at h
            rw [heq] at h
            simp at h
          refine Or.inr ?_
          show slotGet (slotSet t.slots u SlotSt.waiting) s = some SlotSt.canceled
          rw [slotGet_slotSet, if_neg hsu]
          exact h
        · next heq =>
          have hsu : s ≠ u := by
            intro hsu
            rw [hsu] at h
            rw [heq] at h
            simp at h
          refine Or.inr ?_
          show slotGet (slotSet t.slots u SlotSt.waiting) s = some SlotSt.canceled
          rw [slotGet_slotSet, if_neg hsu]
          exact h
        · exact Or.inr h
        · exact Or.inr h
    | complete u =>
      simp only [step]
      split
      · next hc =>
        have hsu : s ≠ u := by
          intro hsu
          rw [hsu] at h
          rw [hc.1] at h
          simp at h
        refine Or.inr ?_
        show slotGet (slotSet t.slots u SlotSt.holding) s = some SlotSt.canceled
        rw [slotGet_slotSet, if_neg hsu]
        exact h
      · exact Or.inr h
    | release u =>
      simp only [step]
      split
      · next hc =>
        have hsu : s ≠ u := by
          intro hsu
          rw [hsu] at h
          rw [hc.1] at h
          simp at h
        have hin : slotGet (slotDel t.slots u) s = some SlotSt.canceled := by
          rw [slotGet_slotDel, if_neg hsu]
          exact h
        rcases advance_dead (slotDel t.slots u).length u (slotDel t.slots u) s hin with
          hle | hc2
        · refine Or.inl ?_
          show s ≤ (advance (slotDel t.slots u).length u (slotDel t.slots u)).1
          exact hle
        · refine Or.inr ?_
          show slotGet (advance (slotDel t.slots u).length u (slotDel t.slots u)).2 s
            = some SlotSt.canceled
          exact hc2
      · exact Or.inr h
    | cancel u =>
      simp only [step]
      split
      · exact Or.inr h
      · split
        · exact Or.inr h
        · refine Or.inr ?_
          show slotGet (slotSet t.slots u SlotSt.canceled) s = some SlotSt.canceled
          rw [slotGet_slotSet]
          by_cases hsu : s = u
          · rw [if_pos hsu]
          · rw [if_neg hsu]
            exact h
    | selfCancel u =>
      simp only [step]
      split
      · exact Or.inr h
      · split
        · exact Or.inr h
        · exact Or.inr h
        · have hin : slotGet (slotSet t.slots u SlotSt.canceled) s = some SlotSt.canceled := by
            rw [slotGet_slotSet]
            by_cases hsu : s = u
            · rw [if_pos hsu]
            · rw [if_neg hsu]
              exact h
          rcases advance_dead (slotSet t.slots u SlotSt.canceled).length t.lastReleased
            (slotSet t.slots u SlotSt.canceled) s hin with hle | hc2
          · refine Or.inl ?_
            show s ≤ (advance (slotSet t.slots u SlotSt.canceled).length t.lastReleased
              (slotSet t.slots u SlotSt.canceled)).1
            exact hle
          · refine Or.inr ?_
            show slotGet (advance (slotSet t.slots u SlotSt.canceled).length t.lastReleased
              (slotSet t.slots u SlotSt.canceled)).2 s = some SlotSt.canceled
            exact hc2
    | interrupt u =>
      simp only [step]
      split
      · next heq =>
        have hsu : s ≠ u := by
          intro hsu
          rw [hsu] at h
          rw [heq] at h
          simp at h
        refine Or.inr ?_
        show slotGet (slotSet t.slots u SlotSt.interrupted) s = some SlotSt.canceled
        rw [slotGet_slotSet, if_neg hsu]
        exact h
      · exact Or.inr h

theorem dead_not_held (t : TO) (ops : List Op) (s : Int) (h : Dead t s) :
    s ∉ holdsOrder t ops := by
  induction ops generalizing t with
  | nil => simp [holdsOrder]
  | cons op rest ih =>
    intro hmem
    cases op with
    | complete u =>
      simp only [holdsOrder] at hmem
      by_cases hok : (step t (Op.complete u)).1 = ToRes.ok
      · rw [if_pos hok] at hmem
        rcases List.mem_cons.mp hmem with h1 | h1
        · subst h1
          obtain ⟨hw, hl⟩ := (complete_ok_iff t s).mp hok
          rcases h with hd | hd
          · omega
          · rw [hd] at hw
            simp at hw
        · exact ih (step t (Op.complete u)).2 (dead_step t (Op.complete u) s h) h1
      · rw [if_neg hok] at hmem
        exact ih (step t (Op.complete u)).2 (dead_step t (Op.complete u) s h) hmem
    | grab u =>
      simp only [holdsOrder] at hmem
      exact ih (step t (Op.grab u)).2 (dead_step t (Op.grab u) s h) hmem
    | release u =>
      simp only [holdsOrder] at hmem
      exact ih (step t (Op.release u)).2 (dead_step t (Op.release u) s h) hmem
    | cancel u =>
      simp only [holdsOrder] at hmem
      exact ih (step t (Op.cancel u)).2 (dead_step t (Op.cancel u) s h) hmem
    | selfCancel u =>
      simp only [holdsOrder] at hmem
      exact ih (step t (Op.selfCancel u)).2 (dead_step t (Op.selfCancel u) s h) hmem
    | interrupt u =>
      simp only [holdsOrder] at hmem
      exact ih (step t (Op.interrupt u)).2 (dead_step t (Op.interrupt u) s h) hmem

/-- A seqno observed in the holding order corresponds to a successful
`complete` event somewhere in the trace. -/
theorem holdsOrder_mem_split (t : TO) (ops : List Op) (s : Int)
    (h : s ∈ holdsOrder t ops) :
    ∃ p r, ops = p ++ Op.complete s :: r ∧
      (step (run t p) (Op.complete s)).1 = ToRes.ok := by
  induction ops generalizing t with
  | nil => simp [holdsOrder] at h
  | cons op rest ih =>
    cases op with
    | complete u =>
      simp only [holdsOrder] at h
      by_cases hok : (step t (Op.complete u)).1 = ToRes.ok
      · rw [if_pos hok] at h
        rcases List.mem_cons.mp h with h1 | h1
        · subst h1
          exact ⟨[], rest, rfl, hok⟩
        · obtain ⟨p, r, hp, hs⟩ := ih (step t (Op.complete u)).2 h1
          exact ⟨Op.complete u :: p, r, by simp [hp], hs⟩
      · rw [if_neg hok] at h
        obtain ⟨p, r, hp, hs⟩ := ih (step t (Op.complete u)).2 h
        exact ⟨Op.complete u :: p, r, by simp [hp], hs⟩
    | grab u =>
      simp only [holdsOrder] at h
      obtain ⟨p, r, hp, hs⟩ := ih (step t (Op.grab u)).2 h
      exact ⟨Op.grab u :: p, r, by simp [hp], hs⟩
    | release u =>
      simp only [holdsOrder] at h
      obtain ⟨p, r, hp, hs⟩ := ih (step t (Op.release u)).2 h
      exact ⟨Op.release u :: p, r, by simp [hp], hs⟩
    | cancel u =>
      simp only [holdsOrder] at h
      obtain ⟨p, r, hp, hs⟩ := ih (step t (Op.cancel u)).2 h
      exact ⟨Op.cancel u :: p, r, by simp [hp], hs⟩
    | selfCancel u =>
      simp only [holdsOrder] at h
      obtain ⟨p, r, hp, hs⟩ := ih (step t (Op.selfCancel u)).2 h
      exact ⟨Op.selfCancel u :: p, r, by simp [hp], hs⟩
    | interrupt u =>
      simp only [holdsOrder] at h
      obtain ⟨p, r, hp, hs⟩ := ih (step t (Op.interrupt u)).2 h
      exact ⟨Op.interrupt u :: p, r, by simp [hp], hs⟩

theorem finishedIn_append (t0 : TO) (p ext : List Op) (v : Int)
    (h : FinishedIn t0 p v) : FinishedIn t0 (p ++ ext) v := by
  obtain ⟨q, o, q', hq, ho, hs⟩ := h
  exact ⟨q, o, q' ++ ext, by simp [hq], ho, hs⟩

/-! ## Claim theorems for the TO monitor -/

/-- **C1.** For every TO monitor and every seqno `N`, a `gcs_to_grab (to, N)`
call returns successfully (event `complete N`) only after
`gcs_to_release (to, N-1)`, or a cancel/self-cancel of `N-1`, has happened
earlier in the trace, or `N-1` is below the monitor's `start_seqno`; and the
observed holding order over any interleaving of grabs is strictly
increasing. -/
theorem to_grab_total_order (len : Nat) (start : Int) (ops : List Op)
    (hlen : 0 < len) :
    List.Chain' (· < ·) (holdsOrder (gcs_to_create len start) ops) ∧
    (∀ p s r, ops = p ++ Op.complete s :: r →
      (step (run (gcs_to_create len start) p) (Op.complete s)).1 = ToRes.ok →
      s - 1 < start ∨ FinishedIn (gcs_to_create len start) p (s - 1)) := by
  constructor
  · exact holdsOrder_chain (gcs_to_create len start) ops (wf_create len start hlen)
  · intro p s r hsplit hok
    by_cases hlt : s - 1 < start
    · exact Or.inl hlt
    · right
      obtain ⟨hw, hl⟩ := (complete_ok_iff (run (gcs_to_create len start) p) s).mp hok
      rcases (run_history (gcs_to_create len start) p).1 (s - 1)
          (by show start - 1 < s - 1; omega) (by omega) with hf | hc
      · exact hf
      · exfalso
        have : slotGet ([] : List (Int × SlotSt)) (s - 1) = some SlotSt.canceled := hc
        simp [slotGet] at this

/-- Witness for C1: window 8 starting at 1; seqno 2 is completed after
seqno 1 was granted and released. -/
theorem to_grab_total_order_witness :
    (0 : Nat) < 8 ∧
    (List.Chain' (· < ·) (holdsOrder (gcs_to_create 8 1)
        [Op.grab 1, Op.complete 1, Op.release 1, Op.grab 2, Op.complete 2]) ∧
      (∀ p s r,
        [Op.grab 1, Op.complete 1, Op.release 1, Op.grab 2, Op.complete 2]
          = p ++ Op.complete s :: r →
        (step (run (gcs_to_create 8 1) p) (Op.complete s)).1 = ToRes.ok →
        s - 1 < 1 ∨ FinishedIn (gcs_to_create 8 1) p (s - 1))) :=
  ⟨by decide, to_grab_total_order 8 1
    [Op.grab 1, Op.complete 1, Op.release 1, Op.grab 2, Op.complete 2] (by decide)⟩

/-- **C2.** The admission test of `gcs_to_grab (to, s)`: a seqno below
`start_seqno` or equal to the current `last_released` fails with `-ERANGE`;
if `s - last_released ≥ window_len` (signed) it fails with `-EAGAIN`;
otherwise (for a fresh seqno) the waiter is admitted in state WAITING. -/
theorem to_grab_admission (t : TO) (s : Int) (h : WF t) :
    ((s < t.start ∨ s = t.lastReleased) → (step t (Op.grab s)).1 = ToRes.erange) ∧
    (t.lastReleased < s → (t.len : Int) ≤ s - t.lastReleased →
      (step t (Op.grab s)).1 = ToRes.eagain) ∧
    (t.lastReleased < s → s - t.lastReleased < (t.len : Int) →
      slotGet t.slots s = none →
      (step t (Op.grab s)).1 = ToRes.ok ∧
      slotGet (step t (Op.grab s)).2.slots s = some SlotSt.waiting) := by
  refine ⟨?_, ?_, ?_⟩
  · intro hs
    have hle : s ≤ t.lastReleased := by
      have := h.startLB
      rcases hs with hs | hs <;> omega
    have hadm : grabAdmit t s = Admit.erange := by
      unfold grabAdmit
      rw [if_pos hle]
    simp only [step]
    rw [hadm]
  · intro h1 h2
    have hadm : grabAdmit t s = Admit.eagain := by
      unfold grabAdmit
      rw [if_neg (by omega), if_pos h2]
    simp only [step]
    rw [hadm]
  · intro h1 h2 hnone
    have hadm : grabAdmit t s = Admit.admitted := by
      unfold grabAdmit
      rw [if_neg (by omega), if_neg (by omega)]
    constructor
    · simp only [step]
      rw [hadm, hnone]
    · simp only [step]
      rw [hadm, hnone]
      show slotGet (slotSet t.slots s SlotSt.waiting) s = some SlotSt.waiting
      rw [slotGet_slotSet, if_pos rfl]

/-- Witness for C2 (spec scenario S3): `to_create(4, 1)`, `grab(5)` returns
`EAGAIN` since `5 - last_released(0) = 5 ≥ 4`. -/
theorem to_grab_admission_witness :
    (gcs_to_create 4 1).lastReleased < 5 ∧
    ((gcs_to_create 4 1).len : Int) ≤ 5 - (gcs_to_create 4 1).lastReleased ∧
    (step (gcs_to_create 4 1) (Op.grab 5)).1 = ToRes.eagain :=
  ⟨by decide, by decide,
    (to_grab_admission (gcs_to_create 4 1) 5 (wf_create 4 1 (by decide))).2.1
      (by decide) (by decide)⟩

/-- **C3.** `gcs_to_cancel (to, s)` on a WAITING seqno succeeds, the waiter's
grab returns `-ECANCEL`, and the canceled seqno never becomes a holder (it
is skipped by successors); cancelling a seqno already past (at or below
`last_released`) returns `-ERANGE`, and so does cancelling the seqno the
caller itself holds (the HOLDING slot). -/
theorem to_cancel_spec (t : TO) (s : Int) (h : WF t) :
    (slotGet t.slots s = some SlotSt.waiting →
      (step t (Op.cancel s)).1 = ToRes.ok ∧
      slotGet (step t (Op.cancel s)).2.slots s = some SlotSt.canceled ∧
      wakeResult (step t (Op.cancel s)).2 s = some ToRes.ecancel ∧
      (∀ ops, s ∉ holdsOrder (step t (Op.cancel s)).2 ops)) ∧
    (s ≤ t.lastReleased → (step t (Op.cancel s)).1 = ToRes.erange) ∧
    (slotGet t.slots s = some SlotSt.holding → (step t (Op.cancel s)).1 = ToRes.erange) := by
  refine ⟨?_, ?_, ?_⟩
  · intro hw
    have hns : ¬(s ≤ t.lastReleased) := by
      have := h.slotsFuture s SlotSt.waiting hw
      omega
    have hres : (step t (Op.cancel s)).1 = ToRes.ok := by
      simp only [step]
      rw [if_neg hns, hw]
    have hstate : (step t (Op.cancel s)).2
        = { t with slots := slotSet t.slots s SlotSt.canceled } := by
      simp only [step]
      rw [if_neg hns, hw]
    have hcanc : slotGet (step t (Op.cancel s)).2.slots s = some SlotSt.canceled := by
      rw [hstate]
      show slotGet (slotSet t.slots s SlotSt.canceled) s = some SlotSt.canceled
      rw [slotGet_slotSet, if_pos rfl]
    refine ⟨hres, hcanc, ?_, ?_⟩
    · unfold wakeResult
      rw [hcanc]
    · intro ops
      exact dead_not_held (step t (Op.cancel s)).2 ops s (Or.inr hcanc)
  · intro hle
    simp only [step]
    rw [if_pos hle]
  · intro hh
    have hns : ¬(s ≤ t.lastReleased) := by
      have := h.slotsFuture s SlotSt.holding hh
      omega
    simp only [step]
    rw [if_neg hns, hh]

/-- Witness for C3 (after spec scenario S2): with 1 holding and 3 waiting,
`cancel(3)` succeeds, the waiter on 3 gets `ECANCEL` and 3 is never held;
`cancel(0)` (already past) and `cancel(1)` (held by the caller) both return
`ERANGE`. -/
theorem to_cancel_spec_witness :
    slotGet (run (gcs_to_create 8 1) [Op.grab 1, Op.complete 1, Op.grab 3]).slots 3
      = some SlotSt.waiting ∧
    ((step (run (gcs_to_create 8 1) [Op.grab 1, Op.complete 1, Op.grab 3])
        (Op.cancel 3)).1 = ToRes.ok ∧
      slotGet (step (run (gcs_to_create 8 1) [Op.grab 1, Op.complete 1, Op.grab 3])
        (Op.cancel 3)).2.slots 3 = some SlotSt.canceled ∧
      wakeResult (step (run (gcs_to_create 8 1) [Op.grab 1, Op.complete 1, Op.grab 3])
        (Op.cancel 3)).2 3 = some ToRes.ecancel ∧
      (∀ ops, (3 : Int) ∉ holdsOrder
        (step (run (gcs_to_create 8 1) [Op.grab 1, Op.complete 1, Op.grab 3])
          (Op.cancel 3)).2 ops)) :=
  ⟨by decide,
    (to_cancel_spec (run (gcs_to_create 8 1) [Op.grab 1, Op.complete 1, Op.grab 3]) 3
      (wf_run (gcs_to_create 8 1) [Op.grab 1, Op.complete 1, Op.grab 3]
        (wf_create 8 1 (by decide)))).1 (by decide)⟩

/-- **C4.** `gcs_to_interrupt (to, s)` wakes a WAITING slot so its grab call
returns `-EINTR`, while seqno `s` stays live in the queue (its slot becomes
INTERRUPTED, and any later seqno can only be held after `s` itself was
released or cancelled); interrupting a slot past the WAITING state (HOLDING,
CANCELED, or already released) returns `-ERANGE`. -/
theorem to_interrupt_spec (t : TO) (s : Int) (h : WF t) :
    (slotGet t.slots s = some SlotSt.waiting →
      (step t (Op.interrupt s)).1 = ToRes.ok ∧
      wakeResult (step t (Op.interrupt s)).2 s = some ToRes.eintr ∧
      slotGet (step t (Op.interrupt s)).2.slots s = some SlotSt.interrupted ∧
      (∀ ops s', s < s' → s' ∈ holdsOrder (step t (Op.interrupt s)).2 ops →
        FinishedIn (step t (Op.interrupt s)).2 ops s)) ∧
    ((slotGet t.slots s = some SlotSt.holding ∨
      slotGet t.slots s = some SlotSt.canceled ∨ s ≤ t.lastReleased) →
      (step t (Op.interrupt s)).1 = ToRes.erange) := by
  constructor
  · intro hw
    have hres : (step t (Op.interrupt s)).1 = ToRes.ok := by
      simp only [step]
      rw [if_pos hw]
    have hstate : (step t (Op.interrupt s)).2
        = { t with slots := slotSet t.slots s SlotSt.interrupted } := by
      simp only [step]
      rw [if_pos hw]
    have hint : slotGet (step t (Op.interrupt s)).2.slots s = some SlotSt.interrupted := by
      rw [hstate]
      show slotGet (slotSet t.slots s SlotSt.interrupted) s = some SlotSt.interrupted
      rw [slotGet_slotSet, if_pos rfl]
    refine ⟨hres, ?_, hint, ?_⟩
    · unfold wakeResult
      rw [hint]
    · intro ops s' hss hmem
      obtain ⟨p, r, hp, hok⟩ :=
        holdsOrder_mem_split (step t (Op.interrupt s)).2 ops s' hmem
      obtain ⟨hw', hl'⟩ :=
        (complete_ok_iff (run (step t (Op.interrupt s)).2 p) s').mp hok
      have hlr : (step t (Op.interrupt s)).2.lastReleased = t.lastReleased := by
        rw [hstate]
      have hsf := h.slotsFuture s SlotSt.waiting hw
      rcases (run_history (step t (Op.interrupt s)).2 p).1 s (by omega) (by omega)
        with hf | hc
      · rw [hp]
        exact finishedIn_append (step t (Op.interrupt s)).2 p (Op.complete s' :: r) s hf
      · exfalso
        rw [hint] at hc
        simp at hc
  · intro hcase
    have hnw : ¬(slotGet t.slots s = some SlotSt.waiting) := by
      rcases hcase with hc | hc | hc
      · rw [hc]
        simp
      · rw [hc]
        simp
      · intro hw
        have := h.slotsFuture s SlotSt.waiting hw
        omega
    simp only [step]
    rw [if_neg hnw]

/-- Witness for C4: with 1 holding and 3 waiting, `interrupt(3)` succeeds,
the waiter on 3 gets `EINTR` and its slot stays live as INTERRUPTED. -/
theorem to_interrupt_spec_witness :
    slotGet (run (gcs_to_create 8 1) [Op.grab 1, Op.complete 1, Op.grab 3]).slots 3
      = some SlotSt.waiting ∧
    ((step (run (gcs_to_create 8 1) [Op.grab 1, Op.complete 1, Op.grab 3])
        (Op.interrupt 3)).1 = ToRes.ok ∧
      wakeResult (step (run (gcs_to_create 8 1) [Op.grab 1, Op.complete 1, Op.grab 3])
        (Op.interrupt 3)).2 3 = some ToRes.eintr ∧
      slotGet (step (run (gcs_to_create 8 1) [Op.grab 1, Op.complete 1, Op.grab 3])
        (Op.interrupt 3)).2.slots 3 = some SlotSt.interrupted ∧
      (∀ ops s', (3 : Int) < s' →
        s' ∈ holdsOrder (step (run (gcs_to_create 8 1)
          [Op.grab 1, Op.complete 1, Op.grab 3]) (Op.interrupt 3)).2 ops →
        FinishedIn (step (run (gcs_to_create 8 1)
          [Op.grab 1, Op.complete 1, Op.grab 3]) (Op.interrupt 3)).2 ops 3)) :=
  ⟨by decide,
    (to_interrupt_spec (run (gcs_to_create 8 1) [Op.grab 1, Op.complete 1, Op.grab 3]) 3
      (wf_run (gcs_to_create 8 1) [Op.grab 1, Op.complete 1, Op.grab 3]
        (wf_create 8 1 (by decide)))).1 (by decide)⟩

/-- **C8.** `gcs_to_seqno (to)` is a conservative snapshot: the value it
returns never exceeds any later value of `last_released` (so a stale read
is always `≤` the true value), the returned seqno is no longer in use (no
live slot), after quiescence it equals `last_released` exactly, and since
the TO sequence starts with 1 the returned value can be 0 (it is 0 right
after `gcs_to_create (len, 1)`). -/
theorem to_seqno_conservative (t : TO) (h : WF t) :
    (∀ ops, gcs_to_seqno t ≤ (run t ops).lastReleased) ∧
    slotGet t.slots (gcs_to_seqno t) = none ∧
    gcs_to_seqno t = t.lastReleased ∧
    (∀ len, gcs_to_seqno (gcs_to_create len 1) = 0) := by
  refine ⟨?_, ?_, rfl, fun len => rfl⟩
  · intro ops
    exact run_lastReleased_le t ops
  · cases hsg : slotGet t.slots (gcs_to_seqno t) with
    | none => rfl
    | some st =>
      exfalso
      have h2 := h.slotsFuture (gcs_to_seqno t) st hsg
      unfold gcs_to_seqno at h2
      omega

/-- Witness for C8 at `to_create(8, 1)`. -/
theorem to_seqno_conservative_witness :
    (∀ ops, gcs_to_seqno (gcs_to_create 8 1) ≤ (run (gcs_to_create 8 1) ops).lastReleased) ∧
    slotGet (gcs_to_create 8 1).slots (gcs_to_seqno (gcs_to_create 8 1)) = none ∧
    gcs_to_seqno (gcs_to_create 8 1) = (gcs_to_create 8 1).lastReleased ∧
    (∀ len, gcs_to_seqno (gcs_to_create len 1) = 0) :=
  to_seqno_conservative (gcs_to_create 8 1) (wf_create 8 1 (by decide))

/-! ## Ordered delivery and seqno assignment (C5, C6)

The dispatch step of the ordered-delivery loop is modelled from the spec
(§4.5); the action type enumeration is embedded from `gcs_act_type_t` in
`gcs.h`. -/

/-- The action types of `gcs_act_type_t` (`gcs.h`). -/
inductive GcsActType
  | data
  | commitCut
  | stateReq
  | conf
  | join
  | sync
  | flow
  | service
  | error
  | unknown
  deriving DecidableEq, Repr

/-- Modelled from the spec: which action types surface in the application
receive queue (§4.5 step 3: DATA and STATE_REQ go to the receive queue;
§4.5 step 4: CONF actions are enqueued; §7: protocol/assembly errors are
surfaced as ordered ERROR actions; FLOW, SYNC, JOIN, SERVICE and
COMMIT_CUT are consumed by their handlers). -/
def toRecvQ : GcsActType → Bool
  | GcsActType.data => true
  | GcsActType.stateReq => true
  | GcsActType.conf => true
  | GcsActType.error => true
  | _ => false

/-- A fully assembled action reaching the dispatch step: type, size,
whether it is ordered, and the repl-wait tag when it originated locally
through `gcs_repl`. -/
structure ActionDesc where
  atype : GcsActType
  size : Nat
  ordered : Bool
  origin : Option Nat
  deriving DecidableEq, Repr

/-- An action as delivered: payload description plus the global and local
seqnos assigned at delivery. -/
structure Delivered where
  act : ActionDesc
  globalSeqno : Int
  localSeqno : Int
  deriving DecidableEq, Repr

/-- Modelled from the spec: the per-node delivery state (§4.5): the seqno
counters, the repl wait table (pending tags), the receive queue, the
fulfilled repl deliveries, and the log of everything delivered, in order. -/
structure Node where
  lastGlobal : Int
  lastLocal : Int
  pendingRepl : List Nat
  recvQ : List Delivered
  replDone : List Delivered
  log : List Delivered
  deriving DecidableEq, Repr

/-- A freshly opened node: nothing delivered yet, so the first ordered
action gets `local_seqno = 1`. -/
def initNode : Node := ⟨0, 0, [], [], [], []⟩

/-- Modelled from the spec: one iteration of the ordered delivery loop
(§4.5): assign `global_seqno = last_global + 1` and
`local_seqno = last_local + 1` to an ordered action (`GCS_SEQNO_ILL` to a
non-ordered service action), then route it: an action matched by a pending
repl wait is consumed by the repl caller and never enqueued for `recv`;
otherwise it goes to the receive queue when its type surfaces to the
application. -/
def dispatch (n : Node) (a : ActionDesc) : Node :=
  let d : Delivered :=
    ⟨a, if a.ordered then n.lastGlobal + 1 else GCS_SEQNO_ILL,
        if a.ordered then n.lastLocal + 1 else GCS_SEQNO_ILL⟩
  let n1 : Node :=
    { n with
      lastGlobal := if a.ordered then n.lastGlobal + 1 else n.lastGlobal,
      lastLocal := if a.ordered then n.lastLocal + 1 else n.lastLocal,
      log := n.log ++ [d] }
  match a.origin with
  | some tag =>
    if tag ∈ n.pendingRepl then
      { n1 with pendingRepl := n1.pendingRepl.erase tag, replDone := n1.replDone ++ [d] }
    else if toRecvQ a.atype then { n1 with recvQ := n1.recvQ ++ [d] } else n1
  | none =>
    if toRecvQ a.atype then { n1 with recvQ := n1.recvQ ++ [d] } else n1

/-- Run the delivery loop over a stream of assembled actions. -/
def runNode (n : Node) : List ActionDesc → Node
  | [] => n
  | a :: rest => runNode (dispatch n a) rest

/-- Modelled from the spec: `gcs_repl` (§4.3, §4.5): register a wait entry
keyed by the action's local tag, let ordered delivery run; when the action
is self-delivered the entry is fulfilled and `gcs_repl` returns the action
size together with the global and local seqnos assigned at delivery. -/
def gcs_repl (n : Node) (tag : Nat) (stream : List ActionDesc) :
    Option (Nat × Int × Int) × Node :=
  let m := runNode { n with pendingRepl := tag :: n.pendingRepl } stream
  match m.replDone.find? (fun d => d.act.origin == some tag) with
  | some d => (some (d.act.size, d.globalSeqno, d.localSeqno), m)
  | none => (none, m)

/-- The local seqnos of the ordered actions of a delivery log, in order. -/
def orderedLocals : List Delivered → List Int
  | [] => []
  | d :: rest =>
    if d.act.ordered then d.localSeqno :: orderedLocals rest else orderedLocals rest

theorem orderedLocals_append (l1 l2 : List Delivered) :
    orderedLocals (l1 ++ l2) = orderedLocals l1 ++ orderedLocals l2 := by
  induction l1 with
  | nil => simp [orderedLocals]
  | cons d rest ih =>
    simp only [List.cons_append, orderedLocals]
    split <;> simp [ih]

theorem dispatch_log (n : Node) (a : ActionDesc) :
    (dispatch n a).log = n.log ++
      [⟨a, if a.ordered then n.lastGlobal + 1 else GCS_SEQNO_ILL,
          if a.ordered then n.lastLocal + 1 else GCS_SEQNO_ILL⟩] := by
  unfold dispatch
  cases a.origin <;> (repeat' split) <;> rfl

theorem dispatch_lastLocal (n : Node) (a : ActionDesc) :
    (dispatch n a).lastLocal = if a.ordered then n.lastLocal + 1 else n.lastLocal := by
  unfold dispatch
  cases a.origin <;> (repeat' split) <;> rfl

theorem range_succ_map_int (k : Nat) (c : Int) :
    (List.range (k + 1)).map (fun i : Nat => c + (i : Int))
      = c :: (List.range k).map (fun i : Nat => c + 1 + (i : Int)) := by
  rw [List.range_succ_eq_map, List.map_cons, List.map_map]
  congr 1
  · simp
  · apply List.map_congr_left
    intro i _
    simp [Function.comp, Nat.succ_eq_add_one]
    ring

theorem runNode_log_locals (stream : List ActionDesc) : ∀ n : Node,
    orderedLocals (runNode n stream).log
      = orderedLocals n.log
        ++ (List.range (stream.countP (fun a => a.ordered))).map
            (fun i : Nat => n.lastLocal + 1 + (i : Int)) := by
  induction stream with
  | nil =>
    intro n
    simp [runNode]
  | cons a rest ih =>
    intro n
    show orderedLocals (runNode (dispatch n a) rest).log = _
    rw [ih (dispatch n a), dispatch_log, dispatch_lastLocal, orderedLocals_append]
    by_cases ha : a.ordered
    · simp only [ha, if_true, List.countP_cons_of_pos, orderedLocals]
      rw [range_succ_map_int (rest.countP (fun a => a.ordered)) (n.lastLocal + 1)]
      simp [orderedLocals]
    · simp only [ha, if_false, List.countP_cons_of_neg, orderedLocals]
      simp [orderedLocals, ha]

/-- **C5.** On a node, the `local_seqno` values attached to successively
delivered ordered actions form the gapless monotonic sequence 1, 2, 3, …:
each one is exactly one greater than the previous one's, starting at 1. -/
theorem local_seqno_gapless (stream : List ActionDesc) :
    orderedLocals (runNode initNode stream).log
      = (List.range (stream.countP (fun a => a.ordered))).map
          (fun i : Nat => (1 : Int) + (i : Int)) := by
  have h := runNode_log_locals stream initNode
  simpa [initNode, orderedLocals] using h

/-! ## Repl self-delivery (C6) -/

theorem dispatch_cases (n : Node) (b : ActionDesc) :
    ∃ g l,
      ((dispatch n b).pendingRepl = n.pendingRepl ∨
        ∃ tg, b.origin = some tg ∧ (dispatch n b).pendingRepl = n.pendingRepl.erase tg) ∧
      ((dispatch n b).replDone = n.replDone ∨
        (dispatch n b).replDone = n.replDone ++ [⟨b, g, l⟩]) ∧
      ((dispatch n b).recvQ = n.recvQ ∨
        (dispatch n b).recvQ = n.recvQ ++ [⟨b, g, l⟩]) := by
  refine ⟨if b.ordered then n.lastGlobal + 1 else GCS_SEQNO_ILL,
    if b.ordered then n.lastLocal + 1 else GCS_SEQNO_ILL, ?_⟩
  unfold dispatch
  cases hb : b.origin with
  | none =>
    dsimp only
    repeat' split
    all_goals first
      | exact ⟨Or.inl rfl, Or.inl rfl, Or.inr rfl⟩
      | exact ⟨Or.inl rfl, Or.inl rfl, Or.inl rfl⟩
  | some tg =>
    dsimp only
    repeat' split
    all_goals first
      | exact ⟨Or.inr ⟨tg, rfl, rfl⟩, Or.inr rfl, Or.inl rfl⟩
      | exact ⟨Or.inl rfl, Or.inl rfl, Or.inr rfl⟩
      | exact ⟨Or.inl rfl, Or.inl rfl, Or.inl rfl⟩

theorem dispatch_fulfill (n : Node) (a : ActionDesc) (tag : Nat)
    (ha : a.origin = some tag) (hp : tag ∈ n.pendingRepl) :
    (dispatch n a).replDone = n.replDone ++
      [⟨a, if a.ordered then n.lastGlobal + 1 else GCS_SEQNO_ILL,
          if a.ordered then n.lastLocal + 1 else GCS_SEQNO_ILL⟩] ∧
    (dispatch n a).recvQ = n.recvQ ∧
    (dispatch n a).log = n.log ++
      [⟨a, if a.ordered then n.lastGlobal + 1 else GCS_SEQNO_ILL,
          if a.ordered then n.lastLocal + 1 else GCS_SEQNO_ILL⟩] ∧
    (dispatch n a).pendingRepl = n.pendingRepl.erase tag := by
  unfold dispatch
  simp only [ha]
  rw [if_pos hp]
  exact ⟨rfl, rfl, rfl, rfl⟩

theorem runNode_append (s1 s2 : List ActionDesc) : ∀ n : Node,
    runNode n (s1 ++ s2) = runNode (runNode n s1) s2 := by
  induction s1 with
  | nil => intro n; rfl
  | cons b rest ih => intro n; exact ih (dispatch n b)

/-- Processing a stream with no action tagged `tag` keeps `tag` pending and
adds no `tag`-tagged entry to the repl-done list. -/
theorem runNode_pre (stream : List ActionDesc) : ∀ (n : Node) (tag : Nat),
    (∀ b ∈ stream, b.origin ≠ some tag) →
    tag ∈ n.pendingRepl →
    (∀ d ∈ n.replDone, d.act.origin ≠ some tag) →
    tag ∈ (runNode n stream).pendingRepl ∧
    (∀ d ∈ (runNode n stream).replDone, d.act.origin ≠ some tag) := by
  induction stream with
  | nil =>
    intro n tag _ h2 h3
    exact ⟨h2, h3⟩
  | cons b rest ih =>
    intro n tag h1 h2 h3
    have hb : b.origin ≠ some tag := h1 b (List.mem_cons_self b rest)
    obtain ⟨g, l, hpend, hrep, _⟩ := dispatch_cases n b
    refine ih (dispatch n b) tag (fun c hc => h1 c (List.mem_cons_of_mem b hc)) ?_ ?_
    · rcases hpend with hp | ⟨tg, htg, hp⟩
      · rw [hp]
        exact h2
      · rw [hp]
        have htgne : tag ≠ tg := by
          intro he
          exact hb (by rw [htg, he])
        exact (List.mem_erase_of_ne htgne).mpr h2
    · rcases hrep with hr | hr
      · rw [hr]
        exact h3
      · rw [hr]
        intro d hd
        rcases List.mem_append.mp hd with hd | hd
        · exact h3 d hd
        · simp at hd
          rw [hd]
          exact hb
/-- Processing a stream with no action tagged `tag` adds no `tag`-tagged
entry to the receive queue. -/
theorem runNode_recvQ_clean (stream : List ActionDesc) : ∀ (n : Node) (tag : Nat),
    (∀ b ∈ stream, b.origin ≠ some tag) →
    (∀ d ∈ n.recvQ, d.act.origin ≠ some tag) →
    (∀ d ∈ (runNode n stream).recvQ, d.act.origin ≠ some tag) := by
  induction stream with
  | nil =>
    intro n tag _ h2
    exact h2
  | cons b rest ih =>
    intro n tag h1 h2
    have hb : b.origin ≠ some tag := h1 b (List.mem_cons_self b rest)
    obtain ⟨g, l, _, _, hrecv⟩ := dispatch_cases n b
    refine ih (dispatch n b) tag (fun c hc => h1 c (List.mem_cons_of_mem b hc)) ?_
    rcases hrecv with hr | hr
    · rw [hr]
      exact h2
    · rw [hr]
      intro d hd
      rcases List.mem_append.mp hd with hd | hd
      · exact h2 d hd
      · simp at hd
        rw [hd]
        exact hb

/-- Processing a stream with no action tagged `tag` only appends
`tag`-clean entries to the repl-done list. -/
theorem runNode_post_replDone (stream : List ActionDesc) : ∀ (n : Node) (tag : Nat),
    (∀ b ∈ stream, b.origin ≠ some tag) →
    ∃ ext, (runNode n stream).replDone = n.replDone ++ ext ∧
      ∀ d ∈ ext, d.act.origin ≠ some tag := by
  induction stream with
  | nil =>
    intro n tag _
    exact ⟨[], by simp [runNode], by simp⟩
  | cons b rest ih =>
    intro n tag h1
    have hb : b.origin ≠ some tag := h1 b (List.mem_cons_self b rest)
    obtain ⟨g, l, _, hrep, _⟩ := dispatch_cases n b
    obtain ⟨ext, hext, hclean⟩ :=
      ih (dispatch n b) tag (fun c hc => h1 c (List.mem_cons_of_mem b hc))
    rcases hrep with hr | hr
    · refine ⟨ext, ?_, hclean⟩
      show (runNode (dispatch n b) rest).replDone = n.replDone ++ ext
      rw [hext, hr]
    · refine ⟨⟨b, g, l⟩ :: ext, ?_, ?_⟩
      · show (runNode (dispatch n b) rest).replDone = n.replDone ++ ⟨b, g, l⟩ :: ext
        rw [hext, hr]
        simp
      · intro d hd
        rcases List.mem_cons.mp hd with hd | hd
        · rw [hd]
          exact hb
        · exact hclean d hd

theorem runNode_log_mem (stream : List ActionDesc) : ∀ (n : Node) (d : Delivered),
    d ∈ n.log → d ∈ (runNode n stream).log := by
  induction stream with
  | nil =>
    intro n d h
    exact h
  | cons b rest ih =>
    intro n d h
    refine ih (dispatch n b) d ?_
    rw [dispatch_log]
    exact List.mem_append_left _ h

theorem find_first_after (p : Delivered → Bool) (d : Delivered) (l2 : List Delivered) :
    ∀ l1 : List Delivered, (∀ x ∈ l1, ¬ p x = true) → p d = true →
    List.find? p (l1 ++ d :: l2) = some d := by
  intro l1
  induction l1 with
  | nil =>
    intro _ hd
    rw [List.nil_append, List.find?_cons_of_pos _ hd]
  | cons x rest ih =>
    intro h1 hd
    have hx := h1 x (List.mem_cons_self x rest)
    rw [List.cons_append, List.find?_cons_of_neg _ hx]
    exact ih (fun y hy => h1 y (List.mem_cons_of_mem x hy)) hd

theorem gcs_repl_node (n : Node) (tag : Nat) (stream : List ActionDesc) :
    (gcs_repl n tag stream).2
      = runNode { n with pendingRepl := tag :: n.pendingRepl } stream := by
  unfold gcs_repl
  dsimp only
  split <;> rfl

/-- **C6.** `gcs_repl` blocks until the action is self-delivered through the
ordered stream, then returns with the size and both seqnos assigned at
delivery, and the replicated action is consumed by the repl caller: it never
appears in this node's receive queue. -/
theorem repl_self_delivery (n : Node) (tag : Nat) (pre post : List ActionDesc)
    (a : ActionDesc)
    (hrd : ∀ d ∈ n.replDone, d.act.origin ≠ some tag)
    (hrq : ∀ d ∈ n.recvQ, d.act.origin ≠ some tag)
    (ha : a.origin = some tag)
    (hpre : ∀ b ∈ pre, b.origin ≠ some tag)
    (hpost : ∀ b ∈ post, b.origin ≠ some tag) :
    (∃ d, d ∈ (gcs_repl n tag (pre ++ a :: post)).2.log ∧ d.act = a ∧
      (gcs_repl n tag (pre ++ a :: post)).1
        = some (a.size, d.globalSeqno, d.localSeqno)) ∧
    (∀ d ∈ (gcs_repl n tag (pre ++ a :: post)).2.recvQ, d.act.origin ≠ some tag) := by
  have hn0pend : tag ∈ ({ n with pendingRepl := tag :: n.pendingRepl } : Node).pendingRepl :=
    List.mem_cons_self tag n.pendingRepl
  obtain ⟨hpend1, hrd1⟩ :=
    runNode_pre pre { n with pendingRepl := tag :: n.pendingRepl } tag hpre hn0pend hrd
  have hrq1 :=
    runNode_recvQ_clean pre { n with pendingRepl := tag :: n.pendingRepl } tag hpre hrq
  obtain ⟨hfA, hfB, hfC, _⟩ :=
    dispatch_fulfill (runNode { n with pendingRepl := tag :: n.pendingRepl } pre) a tag
      ha hpend1
  obtain ⟨ext, hext, hclean⟩ :=
    runNode_post_replDone post
      (dispatch (runNode { n with pendingRepl := tag :: n.pendingRepl } pre) a) tag hpost
  have hnode : (gcs_repl n tag (pre ++ a :: post)).2
      = runNode (dispatch (runNode { n with pendingRepl := tag :: n.pendingRepl } pre) a)
          post := by
    rw [gcs_repl_node, runNode_append]
    rfl
  have hfind : (runNode
        (dispatch (runNode { n with pendingRepl := tag :: n.pendingRepl } pre) a)
        post).replDone.find? (fun d => d.act.origin == some tag)
      = some ⟨a,
          if a.ordered
            then (runNode { n with pendingRepl := tag :: n.pendingRepl } pre).lastGlobal + 1
            else GCS_SEQNO_ILL,
          if a.ordered
            then (runNode { n with pendingRepl := tag :: n.pendingRepl } pre).lastLocal + 1
            else GCS_SEQNO_ILL⟩ := by
    rw [hext, hfA, List.append_assoc, List.singleton_append]
    refine find_first_after _ _ _ _ ?_ ?_
    · intro x hx
      have := hrd1 x hx
      simp [this]
    · simp [ha]
  have hresult : (gcs_repl n tag (pre ++ a :: post)).1
      = some (a.size,
          (if a.ordered
            then (runNode { n with pendingRepl := tag :: n.pendingRepl } pre).lastGlobal + 1
            else GCS_SEQNO_ILL),
          (if a.ordered
            then (runNode { n with pendingRepl := tag :: n.pendingRepl } pre).lastLocal + 1
            else GCS_SEQNO_ILL)) := by
    unfold gcs_repl
    dsimp only
    rw [show runNode { n with pendingRepl := tag :: n.pendingRepl } (pre ++ a :: post)
        = runNode (dispatch (runNode { n with pendingRepl := tag :: n.pendingRepl } pre) a)
            post by rw [runNode_append]; rfl]
    rw [hfind]
  constructor
  · refine ⟨⟨a,
      if a.ordered
        then (runNode { n with pendingRepl := tag :: n.pendingRepl } pre).lastGlobal + 1
        else GCS_SEQNO_ILL,
      if a.ordered
        then (runNode { n with pendingRepl := tag :: n.pendingRepl } pre).lastLocal + 1
        else GCS_SEQNO_ILL⟩, ?_, rfl, hresult⟩
    rw [hnode]
    refine runNode_log_mem post _ _ ?_
    rw [hfC]
    exact List.mem_append_right _ (List.mem_singleton_self _)
  · intro d hd
    rw [hnode] at hd
    refine runNode_recvQ_clean post _ tag hpost ?_ d hd
    rw [hfB]
    exact hrq1

/-- Witness for C6: a fresh node replicates a 250-byte ordered DATA action
tagged 7; it is consumed by the repl caller with seqnos (1, 1) and never
reaches the receive queue. -/
theorem repl_self_delivery_witness :
    (⟨GcsActType.data, 250, true, some 7⟩ : ActionDesc).origin = some 7 ∧
    ((∃ d, d ∈ (gcs_repl initNode 7
        [⟨GcsActType.data, 250, true, some 7⟩]).2.log ∧
      d.act = ⟨GcsActType.data, 250, true, some 7⟩ ∧
      (gcs_repl initNode 7 [⟨GcsActType.data, 250, true, some 7⟩]).1
        = some (250, d.globalSeqno, d.localSeqno)) ∧
    (∀ d ∈ (gcs_repl initNode 7 [⟨GcsActType.data, 250, true, some 7⟩]).2.recvQ,
      d.act.origin ≠ some 7)) :=
  ⟨rfl,
    repl_self_delivery initNode 7 [] [] ⟨GcsActType.data, 250, true, some 7⟩
      (by intro d hd; simp [initNode] at hd)
      (by intro d hd; simp [initNode] at hd) rfl
      (by intro b hb; simp at hb) (by intro b hb; simp at hb)⟩

/-! ## Connection state machine (C9) -/

/-- Modelled from the spec: the connection states (§4.4), plus the
"being destroyed" condition that `gcs_init` reports with `-EBADFD`. -/
inductive ConnState
  | created
  | inited
  | openNonPrim
  | openPrim
  | joiner
  | joined
  | synced
  | closed
  | destroyed
  deriving DecidableEq, Repr

/-- The connection has been opened (`gcs_open` happened, no `gcs_close`
since). -/
def connOpened : ConnState → Bool
  | ConnState.openNonPrim => true
  | ConnState.openPrim => true
  | ConnState.joiner => true
  | ConnState.joined => true
  | ConnState.synced => true
  | _ => false

/-- Modelled from the spec: the connection handle as far as `gcs_init` is
concerned: the state machine state plus the group-history hint (seqno and
16-byte UUID). -/
structure Conn where
  state : ConnState
  histSeqno : Int
  histUuid : List Nat
  deriving DecidableEq, Repr

/-- Modelled from the spec: `gcs_init (conn, seqno, uuid)` (§4.4 and the
`gcs.h` doc comment): legal only before `gcs_open()` or after
`gcs_close()`, where it stores the history hint, moves to INITED and
returns 0; `-EBUSY` when the connection is already opened; `-EBADFD` when
the connection object is being destroyed. -/
def gcs_init (c : Conn) (seqno : Int) (uuid : List Nat) : Int × Conn :=
  match c.state with
  | ConnState.destroyed => (-EBADFD, c)
  | ConnState.created =>
    (0, { state := ConnState.inited, histSeqno := seqno, histUuid := uuid })
  | ConnState.inited =>
    (0, { state := ConnState.inited, histSeqno := seqno, histUuid := uuid })
  | ConnState.closed =>
    (0, { state := ConnState.inited, histSeqno := seqno, histUuid := uuid })
  | _ => (-EBUSY, c)

/-- **C9.** `gcs_init (conn, seqno, uuid)` is only legal before
`gcs_open()` or after `gcs_close()` (connection in CREATED or CLOSED
state), where it returns 0; it returns `-EBUSY` if the connection is
already opened, and `-EBADFD` if the connection object is being
destroyed. -/
theorem gcs_init_states (c : Conn) (seqno : Int) (uuid : List Nat) :
    ((c.state = ConnState.created ∨ c.state = ConnState.closed) →
      (gcs_init c seqno uuid).1 = 0 ∧
      (gcs_init c seqno uuid).2.state = ConnState.inited) ∧
    (connOpened c.state = true → (gcs_init c seqno uuid).1 = -EBUSY) ∧
    (c.state = ConnState.destroyed → (gcs_init c seqno uuid).1 = -EBADFD) := by
  refine ⟨?_, ?_, ?_⟩
  · intro hs
    unfold gcs_init
    rcases hs with hs | hs <;> rw [hs] <;> exact ⟨rfl, rfl⟩
  · intro hs
    unfold gcs_init
    cases hc : c.state <;>
      first
        | (rw [hc] at hs; exact absurd hs (by decide))
        | rfl
  · intro hs
    unfold gcs_init
    rw [hs]

/-- Witness for C9: `gcs_init` on a freshly created connection succeeds
and moves it to INITED. -/
theorem gcs_init_states_witness :
    ((⟨ConnState.created, 0, []⟩ : Conn).state = ConnState.created ∨
      (⟨ConnState.created, 0, []⟩ : Conn).state = ConnState.closed) ∧
    ((gcs_init ⟨ConnState.created, 0, []⟩ 5 [1, 2, 3]).1 = 0 ∧
      (gcs_init ⟨ConnState.created, 0, []⟩ 5 [1, 2, 3]).2.state = ConnState.inited) :=
  ⟨Or.inl rfl,
    (gcs_init_states ⟨ConnState.created, 0, []⟩ 5 [1, 2, 3]).1 (Or.inl rfl)⟩

/-! ## The CONF action payload layout (C7)

`gcs_act_conf_t` and `GCS_MEMBER_NAME_MAX` are embedded from `gcs.h`
(lines 360-371).  The struct declares `long memb_num; long my_idx` — the
C `long` type — while the spec (§6.4) asserts `int32` fields there, and
`bool st_required` where the spec says `uint8`.  Sizes and offsets are
computed for the LP64 data model (64-bit Linux, the platform this code
targets), where `long` is 8 bytes, not 4. -/

/-- `GCS_UUID_LEN` from `gcs.h`. -/
def GCS_UUID_LEN : Nat := 16

/-- `GCS_MEMBER_NAME_MAX` from `gcs.h`: member name max length including
the terminating null. -/
def GCS_MEMBER_NAME_MAX : Nat := 40

/-- The C type shapes occurring in `gcs_act_conf_t` and in the spec's
claimed layout. -/
inductive CType
  | int64
  | uint8
  | cbool
  | clong
  | int32
  | bytes (n : Nat)
  | flex
  deriving DecidableEq, Repr

/-- Size in bytes on the LP64 data model; `flex` is the C flexible array
member `char data[0]` of size 0. -/
def CType.sizeLP64 : CType → Nat
  | CType.int64 => 8
  | CType.uint8 => 1
  | CType.cbool => 1
  | CType.clong => 8
  | CType.int32 => 4
  | CType.bytes n => n
  | CType.flex => 0

/-- Natural alignment in bytes on LP64. -/
def CType.alignLP64 : CType → Nat
  | CType.int64 => 8
  | CType.uint8 => 1
  | CType.cbool => 1
  | CType.clong => 8
  | CType.int32 => 4
  | CType.bytes _ => 1
  | CType.flex => 1

def alignUp (off a : Nat) : Nat := (off + a - 1) / a * a

/-- Field offsets of a C struct under natural alignment. -/
def layoutOffsets : List (String × CType) → Nat → List (String × Nat)
  | [], _ => []
  | (f, ty) :: rest, off =>
    let o := alignUp off ty.alignLP64
    (f, o) :: layoutOffsets rest (o + ty.sizeLP64)

/-- The fields of `gcs_act_conf_t` exactly as declared in `gcs.h`:
`gcs_seqno_t seqno` (int64_t), `gcs_seqno_t conf_id`,
`uint8_t group_uuid[GCS_UUID_LEN]`, `bool st_required`, `long memb_num`,
`long my_idx`, `char data[0]`. -/
def gcs_act_conf_fields : List (String × CType) :=
  [("seqno", CType.int64),
   ("conf_id", CType.int64),
   ("group_uuid", CType.bytes GCS_UUID_LEN),
   ("st_required", CType.cbool),
   ("memb_num", CType.clong),
   ("my_idx", CType.clong),
   ("data", CType.flex)]

/-- The CONF payload layout the spec asserts (§6.4): int64 seqno, int64
conf_id, byte[16] group_uuid, uint8 st_required, int32 memb_num, int32
my_idx, then the member id data. -/
def spec_conf_fields : List (String × CType) :=
  [("seqno", CType.int64),
   ("conf_id", CType.int64),
   ("group_uuid", CType.bytes GCS_UUID_LEN),
   ("st_required", CType.uint8),
   ("memb_num", CType.int32),
   ("my_idx", CType.int32),
   ("data", CType.flex)]

/-- **C7, counterexample.** The declared struct does not match the layout
the claim asserts: field 4 (`memb_num`) is a C `long` (8 bytes on LP64),
not an `int32` (4 bytes), so the field list and the resulting offsets
differ. -/
theorem conf_layout_counterexample :
    gcs_act_conf_fields.get? 4 = some ("memb_num", CType.clong) ∧
    spec_conf_fields.get? 4 = some ("memb_num", CType.int32) ∧
    CType.clong.sizeLP64 = 8 ∧
    CType.int32.sizeLP64 = 4 ∧
    gcs_act_conf_fields ≠ spec_conf_fields ∧
    (layoutOffsets gcs_act_conf_fields 0).get? 4 = some ("memb_num", 40) ∧
    (layoutOffsets spec_conf_fields 0).get? 4 = some ("memb_num", 36) := by
  refine ⟨rfl, rfl, rfl, rfl, ?_, rfl, rfl⟩
  intro h
  have h4 : gcs_act_conf_fields.get? 4 = spec_conf_fields.get? 4 := by rw [h]
  rw [show gcs_act_conf_fields.get? 4 = some ("memb_num", CType.clong) from rfl,
    show spec_conf_fields.get? 4 = some ("memb_num", CType.int32) from rfl] at h4
  simp at h4

/-- **C7, amended.** The CONF payload layout as actually declared: int64
seqno, int64 conf_id, 16-byte group UUID, C `bool` st_required (1 byte),
then `long memb_num` and `long my_idx` (C `long`, 8 bytes each on LP64, at
offsets 40 and 48 after alignment padding), followed by the member id
data; member names are at most 39 bytes plus terminator
(`GCS_MEMBER_NAME_MAX = 40` including the terminating null). -/
theorem conf_layout_amended :
    gcs_act_conf_fields
      = [("seqno", CType.int64), ("conf_id", CType.int64),
         ("group_uuid", CType.bytes 16), ("st_required", CType.cbool),
         ("memb_num", CType.clong), ("my_idx", CType.clong),
         ("data", CType.flex)] ∧
    layoutOffsets gcs_act_conf_fields 0
      = [("seqno", 0), ("conf_id", 8), ("group_uuid", 16), ("st_required", 32),
         ("memb_num", 40), ("my_idx", 48), ("data", 56)] ∧
    GCS_UUID_LEN = 16 ∧
    GCS_MEMBER_NAME_MAX = 39 + 1 :=
  ⟨rfl, rfl, rfl, rfl⟩

/-! ## AsioUdpSocket::set_option (C10) -/

/-- The state of an `AsioUdpSocket` embedded from
`gcomm/src/asio_udp.hpp`: the lifecycle state `state_`, the OS socket
`socket_`, the target and source endpoints, and the receive buffer; the
back-reference `net_` to the owning reactor is identified by an id. -/
structure AsioUdpSocket where
  net : Nat
  state_ : Nat
  socket_ : Nat
  target_ep : Nat × Nat
  source_ep : Nat × Nat
  recv_buf : List Nat
  deriving DecidableEq, Repr

/-- `AsioUdpSocket::set_option(name, value)` embedded from
`gcomm/src/asio_udp.hpp` line 39: the body is empty
(`{ /* not implemented */ }`), so the call changes nothing and returns
normally without signalling an error. -/
def AsioUdpSocket.set_option (s : AsioUdpSocket) (_name _value : String) :
    Except String Unit × AsioUdpSocket :=
  (Except.ok (), s)

/-- **C10.** `AsioUdpSocket::set_option(name, value)` is a no-op for every
option name and value: it leaves the entire socket state unchanged and
returns without signalling any error, so option settings on UDP sockets
are silently ignored. -/
theorem udp_set_option_noop (s : AsioUdpSocket) (name value : String) :
    s.set_option name value = (Except.ok (), s) := rfl

end Galera
